import Mathlib

/-!
# Base64 encoder and decoder of `base64.h`

A shallow embedding of the two C functions `encode` and `decode`, followed by the
properties proved about them.

Modelling conventions.

* An `unsigned char` buffer is a `List Nat`; a well-formed buffer holds values below 256.
  The input pointer together with `in_len` becomes a list and a length. Reading or writing
  outside a buffer, or indexing outside a static table, is undefined behaviour in C and is
  `none` here, so a result `some _` says that every access was in bounds.
* The `int` locals that never become negative (`out_index`, `partial_char`, `temp_char`,
  `out_char`) are natural numbers; `byte_counter` (which is set to `-1`), `decode_index`
  and `decode_val` are integers. These naturals do not wrap around. The model and the code
  agree as long as no `int` overflows: for `encode` that is `in_len <= 1610612733`, where
  `in_index` and `out_index` stay at most `2^31 - 1` (the count is at most `4 * ceil(n/3)`),
  for `decode` it is `in_len <= 2863311530`, where `out_index` stays at most `floor(3n/4)`,
  itself at most `2^31 - 1` (`decode_out_index_bound`). Beyond these lengths signed overflow
  is undefined in C, and a statement about a returned count, about the cells a call writes
  or about a buffer that suffices carries the range as a hypothesis.
* `char` is taken to be signed, so that the entries `-1` and `-2` of `decoding` compare
  equal to the constants `-1` and `-2`.
* A store of an `int` into an `unsigned char` cell keeps the value modulo 256.
-/

namespace Base64

/-! ## Static tables -/

/-- The array `base64_alphabet` of `encode`: 64 data symbols, the padding symbol at index 64,
and the terminating NUL of the string literal at index 65. -/
def base64_alphabet : List Nat :=
  ("ABCDEFGHIJKLMNOPQRSTUVWXYZabcdefghijklmnopqrstuvwxyz0123456789+/=".toList.map Char.toNat)
    ++ [0]

/-- The array `decoding` of `decode`, indexed by character code minus 43. -/
def decoding : List Int :=
  [62,-1,-1,-1,63,52,53,54,55,56,57,58,59,60,61,-1,-1,-1,-2,-1,-1,-1,0,1,2,3,4,5,6,7,8,9,10,
   11,12,13,14,15,16,17,18,19,20,21,22,23,24,25,-1,-1,-1,-1,-1,-1,26,27,28,29,30,31,32,33,34,
   35,36,37,38,39,40,41,42,43,44,45,46,47,48,49,50,51]

/-! ## Memory access -/

/-- The assignment `buf[i] = v` into a caller buffer; `none` outside the buffer. -/
def store (buf : List Nat) (i v : Nat) : Option (List Nat) :=
  if i < buf.length then some (buf.set i v) else none

/-! ## `encode` -/

/-- The mutable locals of `encode` together with the output buffer. -/
structure EncState where
  output : List Nat
  out_index : Nat
  byte_counter : Int
  partial_char : Nat
deriving DecidableEq

/-- One iteration of the `for` loop of `encode` (lines 38-52). -/
def encode_body (input : List Nat) (in_index : Nat) (s : EncState) : Option EncState := do
  let s1 ←
    if s.byte_counter = 0 then do
      let x ← input[in_index]?
      let c ← base64_alphabet[(x &&& 0xfc) >>> 2]?
      let out ← store s.output s.out_index c
      pure { s with output := out, out_index := s.out_index + 1,
                    partial_char := (x &&& 0x3) <<< 4 }
    else if s.byte_counter = 1 then do
      let x ← input[in_index]?
      let c ← base64_alphabet[s.partial_char ||| ((x &&& 0xf0) >>> 4)]?
      let out ← store s.output s.out_index c
      pure { s with output := out, out_index := s.out_index + 1,
                    partial_char := (x &&& 0xf) <<< 2 }
    else if s.byte_counter = 2 then do
      let x ← input[in_index]?
      let c ← base64_alphabet[s.partial_char ||| ((x &&& 0xc0) >>> 6)]?
      let out ← store s.output s.out_index c
      let d ← base64_alphabet[x &&& 0x3f]?
      let out ← store out (s.out_index + 1) d
      pure { output := out, out_index := s.out_index + 2, partial_char := 0,
             byte_counter := -1 }
    else pure s
  pure { s1 with byte_counter := s1.byte_counter + 1 }

/-- The loop `for(in_index=0; in_index < in_len; in_index++)` of `encode`, with `k` iterations
left to run from `in_index`. -/
def encode_loop (input : List Nat) : Nat → Nat → EncState → Option EncState
  | 0, _, s => some s
  | k + 1, in_index, s =>
    match encode_body input in_index s with
    | none => none
    | some s1 => encode_loop input k (in_index + 1) s1

/-- The function `encode`: the returned count and the output buffer after the call. -/
def encode (input : List Nat) (in_len : Nat) (output : List Nat) (add_padding : Int) :
    Option (Nat × List Nat) :=
  if in_len = 0 then some (0, output)
  else do
    let s ← encode_loop input in_len 0
      { output := output, out_index := 0, byte_counter := 0, partial_char := 0 }
    let s ←
      if s.byte_counter > 0 then do
        let c ← base64_alphabet[s.partial_char]?
        let out ← store s.output s.out_index c
        pure { s with output := out, out_index := s.out_index + 1 }
      else pure s
    let s ←
      if add_padding ≠ 0 then
        if s.byte_counter = 1 then do
          let c ← base64_alphabet[64]?
          let out ← store s.output s.out_index c
          let d ← base64_alphabet[64]?
          let out ← store out (s.out_index + 1) d
          pure { s with output := out, out_index := s.out_index + 2 }
        else if s.byte_counter = 2 then do
          let c ← base64_alphabet[64]?
          let out ← store s.output s.out_index c
          pure { s with output := out, out_index := s.out_index + 1 }
        else pure s
      else pure s
    let out ← store s.output s.out_index 0
    pure (s.out_index, out)

/-! ## `decode` -/

/-- The mutable locals of `decode` together with the output buffer. -/
structure DecState where
  output : List Nat
  out_index : Nat
  byte_counter : Int
  partial_char : Nat
  temp_char : Nat
  out_char : Nat
deriving DecidableEq

/-- One iteration of the `for` loop of `decode` (lines 97-134). `Except.error (r, buf)` is an
early `return r` with the output buffer as it stands; `Except.ok` continues the loop. -/
def decode_body (input : List Nat) (in_index : Nat) (s : DecState) :
    Option (Except (Int × List Nat) DecState) := do
  let c ← input[in_index]?
  let decode_index : Int := (c : Int) - 43
  if decode_index < 0 ∨ decode_index > 79 then
    pure (Except.error (-1, s.output))
  else do
    let decode_val ← decoding[decode_index.toNat]?
    if decode_val = -1 then
      pure (Except.error (-1, s.output))
    else do
      let temp_char : Nat := if decode_val = -2 then 0 else decode_val.toNat
      let s1 : DecState :=
        if s.byte_counter = 0 then
          { s with temp_char := temp_char, partial_char := temp_char <<< 2 }
        else if s.byte_counter = 1 then
          { s with temp_char := temp_char,
                   out_char := s.partial_char + ((temp_char &&& 0x30) >>> 4),
                   partial_char := (temp_char &&& 0xf) <<< 4 }
        else if s.byte_counter = 2 then
          { s with temp_char := temp_char,
                   out_char := s.partial_char + ((temp_char &&& 0x3c) >>> 2),
                   partial_char := (temp_char &&& 0x3) <<< 6 }
        else if s.byte_counter = 3 then
          { s with temp_char := temp_char,
                   out_char := s.partial_char + temp_char,
                   partial_char := 0,
                   byte_counter := -1 }
        else { s with temp_char := temp_char }
      let s2 ←
        if s1.byte_counter ≠ 0 ∧ decode_val ≠ -2 then do
          let out ← store s1.output s1.out_index (s1.out_char % 256)
          pure { s1 with output := out, out_index := s1.out_index + 1, out_char := 0 }
        else if s1.out_char > 0 then do
          let out ← store s1.output s1.out_index (s1.out_char % 256)
          pure { s1 with output := out, out_index := s1.out_index + 1, out_char := 0 }
        else pure s1
      pure (Except.ok { s2 with byte_counter := s2.byte_counter + 1 })

/-- The loop `for(in_index=0; in_index < in_len; in_index++)` of `decode`, with `k` iterations
left to run from `in_index`. -/
def decode_loop (input : List Nat) :
    Nat → Nat → DecState → Option (Except (Int × List Nat) DecState)
  | 0, _, s => some (Except.ok s)
  | k + 1, in_index, s =>
    match decode_body input in_index s with
    | none => none
    | some (Except.error r) => some (Except.error r)
    | some (Except.ok s1) => decode_loop input k (in_index + 1) s1

/-- The function `decode`: the returned `int` (`-1` for an invalid character, else the number
of bytes written) and the output buffer after the call. -/
def decode (input : List Nat) (in_len : Nat) (output : List Nat) : Option (Int × List Nat) :=
  match decode_loop input in_len 0
      { output := output, out_index := 0, byte_counter := 0, partial_char := 0,
        temp_char := 0, out_char := 0 } with
  | none => none
  | some (Except.error r) => some r
  | some (Except.ok s) => do
    let out ← store s.output s.out_index 0
    pure ((s.out_index : Int), out)

/-! ## Reference definitions and proof vocabulary -/

/-- The symbol of a 6-bit value in the alphabet `A-Z a-z 0-9 + /`, written from the
specification's description of the alphabet rather than from the table in the code. -/
def spec_symbol (v : Nat) : Nat :=
  if v < 26 then 65 + v
  else if v < 52 then 97 + (v - 26)
  else if v < 62 then 48 + (v - 52)
  else if v = 62 then 43
  else 47

/-- The padding symbol `=`. -/
def pad_symbol : Nat := 61

/-- Reference Base64 text of a byte sequence, written from the specification: four symbols
per complete group of three bytes, then the symbols of a trailing group of one or two bytes,
followed by padding when `padding` is requested. -/
def spec_encode : List Nat → Bool → List Nat
  | [], _ => []
  | [x], padding =>
    [spec_symbol (x >>> 2), spec_symbol ((x &&& 3) <<< 4)]
      ++ (if padding then [pad_symbol, pad_symbol] else [])
  | [x, y], padding =>
    [spec_symbol (x >>> 2), spec_symbol (((x &&& 3) <<< 4) ||| (y >>> 4)),
     spec_symbol ((y &&& 15) <<< 2)]
      ++ (if padding then [pad_symbol] else [])
  | b0 :: b1 :: b2 :: rest, padding =>
    [spec_symbol (b0 >>> 2), spec_symbol (((b0 &&& 3) <<< 4) ||| (b1 >>> 4)),
     spec_symbol (((b1 &&& 15) <<< 2) ||| (b2 >>> 6)), spec_symbol (b2 &&& 63)]
      ++ spec_encode rest padding

/-- A caller buffer `orig` whose front has been overwritten by the cells `w`. -/
def wr (orig w : List Nat) : List Nat := w ++ orig.drop w.length

/-- Symbols the loop of `encode` has written once it has consumed the bytes `bs`
(the pending partial symbol is not among them). -/
def enc_loop_syms : List Nat → List Nat
  | [] => []
  | [x] => [spec_symbol (x >>> 2)]
  | [x, y] => [spec_symbol (x >>> 2), spec_symbol (((x &&& 3) <<< 4) ||| (y >>> 4))]
  | b0 :: b1 :: b2 :: rest =>
    [spec_symbol (b0 >>> 2), spec_symbol (((b0 &&& 3) <<< 4) ||| (b1 >>> 4)),
     spec_symbol (((b1 &&& 15) <<< 2) ||| (b2 >>> 6)), spec_symbol (b2 &&& 63)]
      ++ enc_loop_syms rest

/-- Value of `partial_char` once the loop of `encode` has consumed the bytes `bs`. -/
def enc_loop_pc : List Nat → Nat
  | [] => 0
  | [x] => (x &&& 3) <<< 4
  | [_, y] => (y &&& 15) <<< 2
  | _ :: _ :: _ :: rest => enc_loop_pc rest

/-- Membership in the 64-symbol alphabet `A-Z`, `a-z`, `0-9`, `+`, `/`, by character code. -/
def is_alphabet (c : Nat) : Prop :=
  (65 ≤ c ∧ c ≤ 90) ∨ (97 ≤ c ∧ c ≤ 122) ∨ (48 ≤ c ∧ c ≤ 57) ∨ c = 43 ∨ c = 47

instance (c : Nat) : Decidable (is_alphabet c) := by
  unfold is_alphabet; infer_instance

/-- A byte `decode` can accept: an alphabet symbol or the padding symbol. -/
def is_valid (c : Nat) : Prop := is_alphabet c ∨ c = pad_symbol

instance (c : Nat) : Decidable (is_valid c) := by
  unfold is_valid; infer_instance

/-- The value `temp_char` that `decode` computes for the character `c` (lines 102-110),
for a character the table accepts. -/
def sym_value (c : Nat) : Nat :=
  if decoding.getD (c - 43) (-1) = -2 then 0 else (decoding.getD (c - 43) (-1)).toNat

/-- Value of `out_char` after the phase switch of `decode` (lines 112-124), in phase
`bc` with carried bits `pc`, on the character `c`, when `out_char` was 0 before. -/
def dec_out (bc pc c : Nat) : Nat :=
  if bc = 0 then 0
  else if bc = 1 then pc + ((sym_value c &&& 0x30) >>> 4)
  else if bc = 2 then pc + ((sym_value c &&& 0x3c) >>> 2)
  else pc + sym_value c

/-- Value of `partial_char` after the phase switch of `decode`. -/
def dec_pc (bc c : Nat) : Nat :=
  if bc = 0 then sym_value c <<< 2
  else if bc = 1 then (sym_value c &&& 0xf) <<< 4
  else if bc = 2 then (sym_value c &&& 0x3) <<< 6
  else 0

/-- Bytes stored by one iteration of `decode` (lines 127-133): none or one. -/
def dec_emit (bc pc c : Nat) : List Nat :=
  if bc ≠ 0 ∧ (c ≠ pad_symbol ∨ dec_out bc pc c > 0) then [dec_out bc pc c % 256] else []

/-- Bytes stored by the loop of `decode` over the accepted characters `cs`, started in
phase `bc` with carried bits `pc`. -/
def dec_run : Nat → Nat → List Nat → List Nat
  | _, _, [] => []
  | bc, pc, c :: cs => dec_emit bc pc c ++ dec_run ((bc + 1) % 4) (dec_pc bc c) cs

/-- Value of `partial_char` after the loop of `decode` has run over `cs`. -/
def dec_run_pc : Nat → Nat → List Nat → Nat
  | _, pc, [] => pc
  | bc, _, c :: cs => dec_run_pc ((bc + 1) % 4) (dec_pc bc c) cs

/-- Value of `temp_char` after the loop of `decode` has run over `cs`. -/
def dec_run_tc : List Nat → Nat → Nat
  | [], tc => tc
  | c :: cs, _ => dec_run_tc cs (sym_value c)

/-- Reference decoding of complete groups of four 6-bit values, written from the
specification: three bytes per group. -/
def spec_decode_groups : List Nat → List Nat
  | v0 :: v1 :: v2 :: v3 :: rest =>
    [(v0 <<< 2) ||| (v1 >>> 4), ((v1 &&& 15) <<< 4) ||| (v2 >>> 2), ((v2 &&& 3) <<< 6) ||| v3]
      ++ spec_decode_groups rest
  | _ => []

/-- Whether `decode` stores a byte while it processes the symbol at position `i`: the loop
is run for `i` iterations from the initial state, then the body once more, and `out_index`
before and after that iteration are compared. -/
def emits_at (input output : List Nat) (i : Nat) : Bool :=
  match decode_loop input i 0
      { output := output, out_index := 0, byte_counter := 0, partial_char := 0,
        temp_char := 0, out_char := 0 } with
  | some (Except.ok s) =>
    match decode_body input i s with
    | some (Except.ok s1) => decide (s1.out_index = s.out_index + 1)
    | _ => false
  | _ => false

/-- The value of `out_char` after the phase switch of the iteration at position `i`
(the reconstructed value the store decision of lines 127-133 looks at). -/
def out_char_at (input output : List Nat) (i : Nat) : Nat :=
  match decode_loop input i 0
      { output := output, out_index := 0, byte_counter := 0, partial_char := 0,
        temp_char := 0, out_char := 0 }, input[i]? with
  | some (Except.ok s), some c => dec_out s.byte_counter.toNat s.partial_char c
  | _, _ => 0

/-- The value of `partial_char` when the iteration at position `i` of `decode` starts
(the bits carried over from the symbol before). -/
def partial_char_at (input output : List Nat) (i : Nat) : Nat :=
  match decode_loop input i 0
      { output := output, out_index := 0, byte_counter := 0, partial_char := 0,
        temp_char := 0, out_char := 0 } with
  | some (Except.ok s) => s.partial_char
  | _ => 0

/-- The suppression condition as the specification words it: first phase of a group of
four, padding symbol just consumed, reconstructed value zero. -/
def spec_suppressed (input output : List Nat) (i : Nat) : Prop :=
  i % 4 = 0 ∧ input[i]? = some pad_symbol ∧ out_char_at input output i = 0

instance (input output : List Nat) (i : Nat) : Decidable (spec_suppressed input output i) := by
  unfold spec_suppressed; infer_instance

/-- The value a mathematical integer has once it is held in a 32-bit signed `int`
(two's complement wrap-around). -/
def to_int32 (x : Int) : Int := (x + 2147483648) % 4294967296 - 2147483648

/-- Invariant of `partial_char` at the start of an iteration of `decode` in phase `bc`: zero
in phase 0, a 6-bit value shifted by 2 in phase 1, a 4-bit value shifted by 4 in phase 2,
a 2-bit value shifted by 6 in phase 3. -/
def carry_ok (bc pc : Nat) : Prop :=
  (bc = 0 → pc = 0) ∧ (bc = 1 → ∃ v, v < 64 ∧ pc = v <<< 2)
    ∧ (bc = 2 → ∃ p, p < 16 ∧ pc = p <<< 4) ∧ (bc = 3 → ∃ p, p < 4 ∧ pc = p <<< 6)

/-! ## Bit arithmetic on bytes and 6-bit values -/

set_option maxRecDepth 100000 in
theorem byte_masks : ∀ x, x < 256 →
    (x &&& 0xfc) >>> 2 = x >>> 2 ∧ (x &&& 0xf0) >>> 4 = x >>> 4 ∧ (x &&& 0xc0) >>> 6 = x >>> 6
    ∧ x >>> 2 < 64 ∧ x >>> 4 < 16 ∧ x >>> 6 < 4 ∧ x &&& 3 < 4 ∧ x &&& 15 < 16 ∧ x &&& 63 < 64
    ∧ (x &&& 3) <<< 4 < 64 ∧ (x &&& 15) <<< 2 < 64 := by
  decide

theorem or_lt_64_a : ∀ p, p < 4 → ∀ q, q < 16 → ((p <<< 4) ||| q) < 64 := by decide

theorem or_lt_64_b : ∀ p, p < 16 → ∀ q, q < 4 → ((p <<< 2) ||| q) < 64 := by decide

theorem alphabet_lookup : ∀ v, v < 64 → base64_alphabet[v]? = some (spec_symbol v) := by
  decide

theorem alphabet_pad : base64_alphabet[64]? = some pad_symbol := by decide

/-! ## Buffers -/

theorem wr_length (orig w : List Nat) (h : w.length ≤ orig.length) :
    (wr orig w).length = orig.length := by
  simp [wr]; omega

theorem store_wr (orig w : List Nat) (j v : Nat) (hj : j = w.length)
    (h : w.length < orig.length) :
    store (wr orig w) j v = some (wr orig (w ++ [v])) := by
  subst hj
  have hlen : (wr orig w).length = orig.length := wr_length orig w (by omega)
  unfold store
  rw [if_pos (by omega)]
  simp only [wr, List.length_append, List.length_singleton, List.append_assoc,
    List.singleton_append]
  rw [List.set_append_right _ _ (le_refl _), Nat.sub_self,
    List.drop_eq_getElem_cons h, List.set_cons_zero]

theorem drop_cons_getElem? {l : List Nat} {i a : Nat} {t : List Nat}
    (h : l.drop i = a :: t) : l[i]? = some a := by
  have := congrArg (fun l => l[0]?) h
  simpa using this

theorem drop_cons_drop {l : List Nat} {i a : Nat} {t : List Nat}
    (h : l.drop i = a :: t) : l.drop (i + 1) = t := by
  have := congrArg (fun l => l.drop 1) h
  simpa using this

/-! ## The loop of `encode` -/

theorem encode_body_0 (input orig w : List Nat) (i x pc : Nat) (hx : input[i]? = some x)
    (hb : x < 256) (hw : w.length < orig.length) :
    encode_body input i ⟨wr orig w, w.length, 0, pc⟩
      = some ⟨wr orig (w ++ [spec_symbol (x >>> 2)]), w.length + 1, 1, (x &&& 3) <<< 4⟩ := by
  obtain ⟨h1, -, -, h4, -⟩ := byte_masks x hb
  simp [encode_body, hx, h1, alphabet_lookup _ h4, store_wr orig w _ _ rfl hw]

theorem encode_body_1 (input orig w : List Nat) (i x a : Nat) (hx : input[i]? = some x)
    (hb : x < 256) (ha : a < 256) (hw : w.length < orig.length) :
    encode_body input i ⟨wr orig w, w.length, 1, (a &&& 3) <<< 4⟩
      = some ⟨wr orig (w ++ [spec_symbol (((a &&& 3) <<< 4) ||| (x >>> 4))]), w.length + 1, 2,
          (x &&& 15) <<< 2⟩ := by
  obtain ⟨-, h2, -, -, h5, -⟩ := byte_masks x hb
  obtain ⟨-, -, -, -, -, -, h7, -⟩ := byte_masks a ha
  have hlt := or_lt_64_a _ h7 _ h5
  simp [encode_body, hx, h2, alphabet_lookup _ hlt, store_wr orig w _ _ rfl hw]

theorem encode_body_2 (input orig w : List Nat) (i x a : Nat) (hx : input[i]? = some x)
    (hb : x < 256) (ha : a < 256) (hw : w.length + 1 < orig.length) :
    encode_body input i ⟨wr orig w, w.length, 2, (a &&& 15) <<< 2⟩
      = some ⟨wr orig (w ++ [spec_symbol (((a &&& 15) <<< 2) ||| (x >>> 6)),
                spec_symbol (x &&& 63)]), w.length + 2, 0, 0⟩ := by
  obtain ⟨-, -, h3, -, -, h6, -, -, h9, -⟩ := byte_masks x hb
  obtain ⟨-, -, -, -, -, -, -, h8, -⟩ := byte_masks a ha
  have hlt := or_lt_64_b _ h8 _ h6
  have hs1 := store_wr orig w _ (spec_symbol (((a &&& 15) <<< 2) ||| (x >>> 6))) rfl
    (by omega)
  have hs2 := store_wr orig (w ++ [spec_symbol (((a &&& 15) <<< 2) ||| (x >>> 6))])
    (w.length + 1) (spec_symbol (x &&& 63)) (by simp) (by simp; omega)
  simp [encode_body, hx, h3, alphabet_lookup _ hlt, alphabet_lookup _ h9, hs1, hs2]

theorem enc_loop_syms_length : ∀ bs : List Nat,
    (enc_loop_syms bs).length = 4 * (bs.length / 3) + bs.length % 3
  | [] => by simp [enc_loop_syms]
  | [_] => by simp [enc_loop_syms]
  | [_, _] => by simp [enc_loop_syms]
  | _ :: _ :: _ :: rest => by
    have ih := enc_loop_syms_length rest
    simp only [enc_loop_syms, List.length_append, List.length_cons, List.length_nil, ih]
    omega

theorem enc_loop_pc_lt : ∀ bs : List Nat, (∀ x ∈ bs, x < 256) → enc_loop_pc bs < 64
  | [], _ => by simp [enc_loop_pc]
  | [x], h => by
    obtain ⟨-, -, -, -, -, -, -, -, -, h10, -⟩ := byte_masks x (h x (by simp))
    simpa [enc_loop_pc] using h10
  | [_, y], h => by
    obtain ⟨-, -, -, -, -, -, -, -, -, -, h11⟩ := byte_masks y (h y (by simp))
    simpa [enc_loop_pc] using h11
  | _ :: _ :: _ :: rest, h => by
    have ih := enc_loop_pc_lt rest (fun x hx => h x (by simp [hx]))
    simpa [enc_loop_pc] using ih

theorem encode_loop_spec (input orig : List Nat) :
    ∀ (bs : List Nat) (i : Nat) (w rest : List Nat), input.drop i = bs ++ rest →
      (∀ x ∈ bs, x < 256) → w.length + (enc_loop_syms bs).length ≤ orig.length →
      encode_loop input bs.length i ⟨wr orig w, w.length, 0, 0⟩
        = some ⟨wr orig (w ++ enc_loop_syms bs), w.length + (enc_loop_syms bs).length,
            ((bs.length % 3 : Nat) : Int), enc_loop_pc bs⟩
  | [], i, w, rest, _, _, _ => by simp [encode_loop, enc_loop_syms, enc_loop_pc]
  | [x], i, w, rest, hd, hb, hl => by
    simp only [enc_loop_syms, List.length_singleton] at hl
    have hx := drop_cons_getElem? hd
    simp [encode_loop, enc_loop_syms, enc_loop_pc,
      encode_body_0 input orig w i x 0 hx (hb x (by simp)) (by omega)]
  | [x, y], i, w, rest, hd, hb, hl => by
    simp only [enc_loop_syms, List.length_cons, List.length_singleton, List.length_nil] at hl
    have hx := drop_cons_getElem? hd
    have hd1 := drop_cons_drop hd
    have hy := drop_cons_getElem? hd1
    have e1 := encode_body_0 input orig w i x 0 hx (hb x (by simp)) (by omega)
    have e2 := encode_body_1 input orig (w ++ [spec_symbol (x >>> 2)]) (i + 1) y x
      (by simpa using hy) (hb y (by simp)) (hb x (by simp)) (by simp; omega)
    simp only [List.length_append, List.length_singleton] at e2
    simp [encode_loop, enc_loop_syms, enc_loop_pc, e1, e2]
  | b0 :: b1 :: b2 :: bs, i, w, rest, hd, hb, hl => by
    simp only [enc_loop_syms, List.length_append, List.length_cons, List.length_nil] at hl
    have h0 := drop_cons_getElem? hd
    have hd1 := drop_cons_drop hd
    have h1 := drop_cons_getElem? hd1
    have hd2 := drop_cons_drop hd1
    have h2 := drop_cons_getElem? hd2
    have hd3 := drop_cons_drop hd2
    have e1 := encode_body_0 input orig w i b0 0 h0 (hb b0 (by simp)) (by omega)
    have e2 := encode_body_1 input orig (w ++ [spec_symbol (b0 >>> 2)]) (i + 1) b1 b0
      h1 (hb b1 (by simp)) (hb b0 (by simp)) (by simp; omega)
    have e3 := encode_body_2 input orig
      (w ++ [spec_symbol (b0 >>> 2)] ++ [spec_symbol (((b0 &&& 3) <<< 4) ||| (b1 >>> 4))])
      (i + 1 + 1) b2 b1 h2 (hb b2 (by simp)) (hb b1 (by simp)) (by simp; omega)
    simp only [List.length_append, List.length_singleton] at e2 e3
    have ih := encode_loop_spec input orig bs (i + 1 + 1 + 1)
      (w ++ [spec_symbol (b0 >>> 2)] ++ [spec_symbol (((b0 &&& 3) <<< 4) ||| (b1 >>> 4))]
        ++ [spec_symbol (((b1 &&& 15) <<< 2) ||| (b2 >>> 6)), spec_symbol (b2 &&& 63)])
      rest hd3 (fun x hx => hb x (by simp [hx])) (by simp; omega)
    simp only [List.length_append, List.length_singleton, List.length_cons,
      List.length_nil] at ih
    have hmod : ((bs.length + 1 + 1 + 1) % 3 : Nat) = bs.length % 3 := by omega
    simp only [List.length_cons, encode_loop, e1, e2, e3, enc_loop_syms, enc_loop_pc]
    rw [ih, hmod]
    simp
    omega

/-! ## `encode` against the reference -/

theorem spec_encode_mod0 : ∀ (bs : List Nat) (padding : Bool), bs.length % 3 = 0 →
    spec_encode bs padding = enc_loop_syms bs
  | [], _, _ => by simp [spec_encode, enc_loop_syms]
  | [_], _, h => by simp at h
  | [_, _], _, h => by simp at h
  | _ :: _ :: _ :: rest, padding, h => by
    have ih := spec_encode_mod0 rest padding (by simp at h; omega)
    simp [spec_encode, enc_loop_syms, ih]

theorem spec_encode_mod1 : ∀ (bs : List Nat) (padding : Bool), bs.length % 3 = 1 →
    spec_encode bs padding = enc_loop_syms bs ++ [spec_symbol (enc_loop_pc bs)]
      ++ (if padding then [pad_symbol, pad_symbol] else [])
  | [], _, h => by simp at h
  | [_], _, _ => by simp [spec_encode, enc_loop_syms, enc_loop_pc]
  | [_, _], _, h => by simp at h
  | _ :: _ :: _ :: rest, padding, h => by
    have ih := spec_encode_mod1 rest padding (by simp at h; omega)
    simp [spec_encode, enc_loop_syms, enc_loop_pc, ih]

theorem spec_encode_mod2 : ∀ (bs : List Nat) (padding : Bool), bs.length % 3 = 2 →
    spec_encode bs padding = enc_loop_syms bs ++ [spec_symbol (enc_loop_pc bs)]
      ++ (if padding then [pad_symbol] else [])
  | [], _, h => by simp at h
  | [_], _, h => by simp at h
  | [_, _], _, _ => by simp [spec_encode, enc_loop_syms, enc_loop_pc]
  | _ :: _ :: _ :: rest, padding, h => by
    have ih := spec_encode_mod2 rest padding (by simp at h; omega)
    simp [spec_encode, enc_loop_syms, enc_loop_pc, ih]

theorem spec_encode_length (bs : List Nat) (padding : Bool) :
    (spec_encode bs padding).length
      = if padding then 4 * ((bs.length + 2) / 3) else (4 * bs.length + 2) / 3 := by
  have hl := enc_loop_syms_length bs
  have h3 : bs.length % 3 = 0 ∨ bs.length % 3 = 1 ∨ bs.length % 3 = 2 := by omega
  rcases h3 with h | h | h
  · rw [spec_encode_mod0 bs padding h]
    cases padding <;> simp <;> omega
  · rw [spec_encode_mod1 bs padding h]
    cases padding <;> simp <;> omega
  · rw [spec_encode_mod2 bs padding h]
    cases padding <;> simp <;> omega

/-- Characterisation of `encode` on a non-empty input: with an output buffer of at least
`4 * ceil(n/3) + 1` cells and an input buffer of at least `n` bytes, `encode` returns the
length of the reference text and leaves the reference text followed by a zero byte at the
front of the buffer. -/
theorem encode_eq (input : List Nat) (n : Nat) (output : List Nat) (p : Int)
    (hn : n ≤ input.length) (hb : ∀ x ∈ input.take n, x < 256)
    (hout : 4 * ((n + 2) / 3) + 1 ≤ output.length) (h0 : n ≠ 0) :
    encode input n output p
      = some ((spec_encode (input.take n) (decide (p ≠ 0))).length,
          wr output (spec_encode (input.take n) (decide (p ≠ 0)) ++ [0])) := by
  have hlen : (input.take n).length = n := by simp [hn]
  have hsl := enc_loop_syms_length (input.take n)
  rw [hlen] at hsl
  have hpc := enc_loop_pc_lt (input.take n) hb
  have hloop := encode_loop_spec input output (input.take n) 0 [] (input.drop n)
    (by simp) hb (by simp; omega)
  have hw0 : wr output [] = output := by simp [wr]
  rw [hw0, hlen] at hloop
  simp only [List.length_nil, Nat.zero_add, List.nil_append] at hloop
  have h3 : n % 3 = 0 ∨ n % 3 = 1 ∨ n % 3 = 2 := by omega
  have hst : ∀ (w : List Nat) (j v : Nat), j = w.length → w.length < output.length →
      store (wr output w) j v = some (wr output (w ++ [v])) :=
    fun w j v h1 h2 => store_wr output w j v h1 h2
  unfold encode
  rw [if_neg h0, hloop]
  have hL : (enc_loop_syms (input.take n)).length = 4 * (n / 3) + n % 3 := hsl
  rcases h3 with h | h | h
  · rw [spec_encode_mod0 _ _ (by rw [hlen]; exact h)]
    generalize enc_loop_syms (input.take n) = L at hL ⊢
    have e0 := hst L L.length 0 rfl (by omega)
    by_cases hp : p = 0 <;> simp [h, hp, e0]
  · rw [spec_encode_mod1 _ _ (by rw [hlen]; exact h)]
    generalize enc_loop_syms (input.take n) = L at hL ⊢
    generalize enc_loop_pc (input.take n) = pc at hpc ⊢
    have hlk := alphabet_lookup pc hpc
    have e0 := hst L L.length (spec_symbol pc) rfl (by omega)
    by_cases hp : p = 0
    · have e1 := hst (L ++ [spec_symbol pc]) (L.length + 1) 0 (by simp) (by simp; omega)
      simp only [List.append_assoc, List.cons_append, List.nil_append] at e1
      simp [h, hp, e0, e1, hlk]
    · have e1 := hst (L ++ [spec_symbol pc]) (L.length + 1) pad_symbol (by simp)
        (by simp; omega)
      have e2 := hst (L ++ [spec_symbol pc] ++ [pad_symbol]) (L.length + 1 + 1) pad_symbol
        (by simp) (by simp; omega)
      have e3 := hst (L ++ [spec_symbol pc] ++ [pad_symbol] ++ [pad_symbol])
        (L.length + 1 + 2) 0 (by simp) (by simp; omega)
      simp only [List.append_assoc, List.cons_append, List.nil_append] at e1 e2 e3
      simp [h, hp, e0, e1, e2, e3, hlk, alphabet_pad]
  · rw [spec_encode_mod2 _ _ (by rw [hlen]; exact h)]
    generalize enc_loop_syms (input.take n) = L at hL ⊢
    generalize enc_loop_pc (input.take n) = pc at hpc ⊢
    have hlk := alphabet_lookup pc hpc
    have e0 := hst L L.length (spec_symbol pc) rfl (by omega)
    by_cases hp : p = 0
    · have e1 := hst (L ++ [spec_symbol pc]) (L.length + 1) 0 (by simp) (by simp; omega)
      simp only [List.append_assoc, List.cons_append, List.nil_append] at e1
      simp [h, hp, e0, e1, hlk]
    · have e1 := hst (L ++ [spec_symbol pc]) (L.length + 1) pad_symbol (by simp)
        (by simp; omega)
      have e2 := hst (L ++ [spec_symbol pc] ++ [pad_symbol]) (L.length + 1 + 1) 0
        (by simp) (by simp; omega)
      simp only [List.append_assoc, List.cons_append, List.nil_append] at e1 e2
      simp [h, hp, e0, e1, e2, hlk, alphabet_pad]

/-! ## One iteration of `decode` -/

theorem valid_lt (c : Nat) (h : is_valid c) : 43 ≤ c ∧ c < 123 := by
  unfold is_valid is_alphabet pad_symbol at h
  omega

set_option maxRecDepth 100000 in
theorem valid_lookup : ∀ c, c < 123 → is_valid c →
    decoding[c - 43]? = some (decoding.getD (c - 43) (-1))
    ∧ decoding.getD (c - 43) (-1) ≠ -1
    ∧ (decoding.getD (c - 43) (-1) = -2 ↔ c = pad_symbol) := by
  decide

set_option maxRecDepth 100000 in
theorem invalid_lookup : ∀ c, c < 123 → 43 ≤ c → ¬ is_valid c →
    decoding[c - 43]? = some (-1) := by
  decide

theorem decode_body_invalid (input : List Nat) (i c : Nat) (s : DecState)
    (hc : input[i]? = some c) (hv : ¬ is_valid c) :
    decode_body input i s = some (Except.error (-1, s.output)) := by
  by_cases h1 : c < 43 ∨ 122 < c
  · have e1 : (c : Int) - 43 < 0 ∨ (c : Int) - 43 > 79 := by omega
    simp only [decode_body, hc, Option.bind_eq_bind, Option.some_bind, if_pos e1]
    rfl
  · have hlk := invalid_lookup c (by omega) (by omega) hv
    have e1 : ¬ ((c : Int) - 43 < 0 ∨ (c : Int) - 43 > 79) := by omega
    have e2 : ((c : Int) - 43).toNat = c - 43 := by omega
    simp only [decode_body, hc, Option.bind_eq_bind, Option.some_bind, if_neg e1, e2, hlk]
    simp

theorem decode_body_valid (input orig w : List Nat) (i c bc pc tc : Nat)
    (hc : input[i]? = some c) (hv : is_valid c) (hbc : bc < 4)
    (hw : w.length + (dec_emit bc pc c).length ≤ orig.length) :
    decode_body input i ⟨wr orig w, w.length, (bc : Int), pc, tc, 0⟩
      = some (Except.ok ⟨wr orig (w ++ dec_emit bc pc c), w.length + (dec_emit bc pc c).length,
          (((bc + 1) % 4 : Nat) : Int), dec_pc bc c, sym_value c, 0⟩) := by
  obtain ⟨h43, h123⟩ := valid_lt c hv
  obtain ⟨hlk, hne, hpad⟩ := valid_lookup c h123 hv
  have e1 : ¬ ((c : Int) - 43 < 0 ∨ (c : Int) - 43 > 79) := by omega
  have e2 : ((c : Int) - 43).toNat = c - 43 := by omega
  have hst : w.length < orig.length → ∀ v,
      store (wr orig w) w.length v = some (wr orig (w ++ [v])) :=
    fun h v => store_wr orig w _ v rfl h
  simp only [decode_body, hc, Option.bind_eq_bind, Option.some_bind, if_neg e1, e2, hlk,
    Option.pure_def, if_neg hne]
  have hsv : (if decoding.getD (c - 43) (-1) = -2 then 0
      else (decoding.getD (c - 43) (-1)).toNat) = sym_value c := rfl
  rw [hsv]
  generalize decoding.getD (c - 43) (-1) = dv at hpad hne
  have h4 : bc = 0 ∨ bc = 1 ∨ bc = 2 ∨ bc = 3 := by omega
  rcases h4 with h | h | h | h <;> subst h
  · simp [dec_emit, dec_pc]
  · by_cases hp : c = pad_symbol
    · have hdv : dv = -2 := hpad.2 hp
      by_cases ho : dec_out 1 pc c > 0
      · have hem : dec_emit 1 pc c = [dec_out 1 pc c % 256] := by simp [dec_emit, ho]
        rw [hem] at hw ⊢
        have hs := hst (by simpa using hw) (dec_out 1 pc c % 256)
        simp only [dec_out] at hs ho
        simp at hs ho
        simp [hdv, ho, hs, dec_pc, dec_out]
      · have hem : dec_emit 1 pc c = [] := by
          simp only [dec_emit]; rw [if_neg]; intro h; exact h.2.elim (fun h => h hp) ho
        rw [hem]
        simp only [dec_out] at ho
        simp at ho
        simp [hdv, ho, dec_pc]
    · have hdv : dv ≠ -2 := fun h => hp (hpad.1 h)
      have hem : dec_emit 1 pc c = [dec_out 1 pc c % 256] := by simp [dec_emit, hp]
      rw [hem] at hw ⊢
      have hs := hst (by simpa using hw) (dec_out 1 pc c % 256)
      simp only [dec_out] at hs
      simp at hs
      simp [hdv, hs, dec_pc, dec_out]
  · by_cases hp : c = pad_symbol
    · have hdv : dv = -2 := hpad.2 hp
      by_cases ho : dec_out 2 pc c > 0
      · have hem : dec_emit 2 pc c = [dec_out 2 pc c % 256] := by simp [dec_emit, ho]
        rw [hem] at hw ⊢
        have hs := hst (by simpa using hw) (dec_out 2 pc c % 256)
        simp only [dec_out] at hs ho
        simp at hs ho
        simp [hdv, ho, hs, dec_pc, dec_out]
      · have hem : dec_emit 2 pc c = [] := by
          simp only [dec_emit]; rw [if_neg]; intro h; exact h.2.elim (fun h => h hp) ho
        rw [hem]
        simp only [dec_out] at ho
        simp at ho
        simp [hdv, ho, dec_pc]
    · have hdv : dv ≠ -2 := fun h => hp (hpad.1 h)
      have hem : dec_emit 2 pc c = [dec_out 2 pc c % 256] := by simp [dec_emit, hp]
      rw [hem] at hw ⊢
      have hs := hst (by simpa using hw) (dec_out 2 pc c % 256)
      simp only [dec_out] at hs
      simp at hs
      simp [hdv, hs, dec_pc, dec_out]
  · by_cases hp : c = pad_symbol
    · have hdv : dv = -2 := hpad.2 hp
      by_cases ho : dec_out 3 pc c > 0
      · have hem : dec_emit 3 pc c = [dec_out 3 pc c % 256] := by simp [dec_emit, ho]
        rw [hem] at hw ⊢
        have hs := hst (by simpa using hw) (dec_out 3 pc c % 256)
        simp only [dec_out] at hs ho
        simp at hs ho
        simp [hdv, ho, hs, dec_pc, dec_out]
      · have hem : dec_emit 3 pc c = [] := by
          simp only [dec_emit]; rw [if_neg]; intro h; exact h.2.elim (fun h => h hp) ho
        rw [hem]
        simp only [dec_out] at ho
        simp at ho
        simp [hdv, ho, dec_pc]
    · have hdv : dv ≠ -2 := fun h => hp (hpad.1 h)
      have hem : dec_emit 3 pc c = [dec_out 3 pc c % 256] := by simp [dec_emit, hp]
      rw [hem] at hw ⊢
      have hs := hst (by simpa using hw) (dec_out 3 pc c % 256)
      simp only [dec_out] at hs
      simp at hs
      simp [hdv, hs, dec_pc, dec_out]

/-! ## The loop of `decode` -/

theorem decode_loop_valid (input orig : List Nat) :
    ∀ (cs : List Nat) (i : Nat) (w : List Nat) (bc pc tc : Nat) (rest : List Nat),
      input.drop i = cs ++ rest → (∀ c ∈ cs, is_valid c) → bc < 4 →
      w.length + (dec_run bc pc cs).length ≤ orig.length →
      decode_loop input cs.length i ⟨wr orig w, w.length, (bc : Int), pc, tc, 0⟩
        = some (Except.ok ⟨wr orig (w ++ dec_run bc pc cs),
            w.length + (dec_run bc pc cs).length, (((bc + cs.length) % 4 : Nat) : Int),
            dec_run_pc bc pc cs, dec_run_tc cs tc, 0⟩)
  | [], i, w, bc, pc, tc, rest, _, _, hbc, _ => by
    simp [decode_loop, dec_run, dec_run_pc, dec_run_tc, Nat.mod_eq_of_lt hbc]
  | c :: cs, i, w, bc, pc, tc, rest, hd, hv, hbc, hl => by
    simp only [dec_run, List.length_append] at hl
    have hc := drop_cons_getElem? hd
    have hd1 := drop_cons_drop hd
    have hb := decode_body_valid input orig w i c bc pc tc hc (hv c (by simp)) hbc (by omega)
    have ih := decode_loop_valid input orig cs (i + 1) (w ++ dec_emit bc pc c) ((bc + 1) % 4)
      (dec_pc bc c) (sym_value c) rest hd1 (fun x hx => hv x (by simp [hx]))
      (Nat.mod_lt _ (by decide)) (by simp only [List.length_append]; omega)
    simp only [List.length_append] at ih
    have hmod : ((bc + 1) % 4 + cs.length) % 4 = (bc + (cs.length + 1)) % 4 := by omega
    simp only [List.length_cons, decode_loop, hb, ih, dec_run, dec_run_pc, dec_run_tc,
      List.append_assoc, List.length_append, hmod, Nat.add_assoc]

theorem decode_loop_invalid (input orig : List Nat) :
    ∀ (cs : List Nat) (i : Nat) (w : List Nat) (bc pc tc c : Nat) (rest : List Nat) (k : Nat),
      input.drop i = cs ++ c :: rest → (∀ c ∈ cs, is_valid c) → ¬ is_valid c → bc < 4 →
      w.length + (dec_run bc pc cs).length ≤ orig.length → cs.length < k →
      decode_loop input k i ⟨wr orig w, w.length, (bc : Int), pc, tc, 0⟩
        = some (Except.error (-1, wr orig (w ++ dec_run bc pc cs)))
  | [], i, w, bc, pc, tc, c, rest, k, hd, _, hc, _, _, hk => by
    obtain ⟨k, rfl⟩ : ∃ j, k = j + 1 := ⟨k - 1, by simp at hk; omega⟩
    have hx := drop_cons_getElem? (by simpa using hd : input.drop i = c :: rest)
    simp [decode_loop, decode_body_invalid input i c _ hx hc, dec_run]
  | a :: cs, i, w, bc, pc, tc, c, rest, k, hd, hv, hc, hbc, hl, hk => by
    obtain ⟨k, rfl⟩ : ∃ j, k = j + 1 := ⟨k - 1, by simp at hk; omega⟩
    simp only [dec_run, List.length_append] at hl
    have ha := drop_cons_getElem? hd
    have hd1 := drop_cons_drop hd
    have hb := decode_body_valid input orig w i a bc pc tc ha (hv a (by simp)) hbc (by omega)
    have ih := decode_loop_invalid input orig cs (i + 1) (w ++ dec_emit bc pc a)
      ((bc + 1) % 4) (dec_pc bc a) (sym_value a) c rest k hd1
      (fun x hx => hv x (by simp [hx])) hc
      (Nat.mod_lt _ (by decide)) (by simp only [List.length_append]; omega)
      (by simp at hk; omega)
    simp only [List.length_append] at ih
    simp only [decode_loop, hb, ih, dec_run, List.append_assoc]

theorem dec_emit_length_le (bc pc c : Nat) :
    (dec_emit bc pc c).length ≤ if bc = 0 then 0 else 1 := by
  unfold dec_emit
  by_cases h : bc = 0
  · simp [h]
  · simp only [h, if_false]
    split <;> simp

theorem dec_run_length_le : ∀ (cs : List Nat) (bc pc : Nat), bc < 4 →
    (dec_run bc pc cs).length + (bc + cs.length + 3) / 4 ≤ cs.length + (bc + 3) / 4
  | [], bc, pc, _ => by simp [dec_run]
  | c :: cs, bc, pc, hbc => by
    have ih := dec_run_length_le cs ((bc + 1) % 4) (dec_pc bc c) (Nat.mod_lt _ (by decide))
    have he := dec_emit_length_le bc pc c
    simp only [dec_run, List.length_append, List.length_cons]
    generalize (dec_emit bc pc c).length = e at he
    generalize (dec_run ((bc + 1) % 4) (dec_pc bc c) cs).length = r at ih
    split at he <;> omega

theorem dec_run_length_le_start (cs : List Nat) (pc : Nat) :
    (dec_run 0 pc cs).length ≤ 3 * cs.length / 4 := by
  have h := dec_run_length_le cs 0 pc (by decide)
  omega

/-! ## `decode` on accepted and on rejected texts -/

/-- Characterisation of `decode` on a text of accepted characters: it returns the number of
bytes the loop stores and leaves them, followed by a zero byte, at the front of the buffer. -/
theorem decode_valid (input : List Nat) (n : Nat) (output : List Nat)
    (hn : n ≤ input.length) (hv : ∀ c ∈ input.take n, is_valid c)
    (hout : (dec_run 0 0 (input.take n)).length + 1 ≤ output.length) :
    decode input n output
      = some (((dec_run 0 0 (input.take n)).length : Int),
          wr output (dec_run 0 0 (input.take n) ++ [0])) := by
  have hlen : (input.take n).length = n := by simp [hn]
  have hloop := decode_loop_valid input output (input.take n) 0 [] 0 0 0 (input.drop n)
    (by simp) hv (by decide) (by simp; omega)
  have hw0 : wr output [] = output := by simp [wr]
  rw [hw0, hlen] at hloop
  simp only [List.length_nil, Nat.zero_add, List.nil_append, Nat.cast_zero] at hloop
  have hs := store_wr output (dec_run 0 0 (input.take n)) _ 0 rfl (by omega)
  simp [decode, hloop, hs]

theorem exists_first_invalid : ∀ l : List Nat, (∃ c ∈ l, ¬ is_valid c) →
    ∃ cs c rest, l = cs ++ c :: rest ∧ (∀ x ∈ cs, is_valid x) ∧ ¬ is_valid c
  | [], h => by simp at h
  | a :: l, h => by
    by_cases ha : is_valid a
    · have hl : ∃ c ∈ l, ¬ is_valid c := by
        obtain ⟨c, hc, hnc⟩ := h
        rcases List.mem_cons.1 hc with rfl | hc
        · exact absurd ha hnc
        · exact ⟨c, hc, hnc⟩
      obtain ⟨cs, c, rest, e, h1, h2⟩ := exists_first_invalid l hl
      refine ⟨a :: cs, c, rest, by simp [e], ?_, h2⟩
      intro x hx
      rcases List.mem_cons.1 hx with rfl | hx
      · exact ha
      · exact h1 x hx
    · exact ⟨[], a, l, by simp, by simp, ha⟩

/-- On a text that contains a rejected character `decode` returns `-1`. -/
theorem decode_invalid (input : List Nat) (n : Nat) (output : List Nat)
    (hn : n ≤ input.length) (hv : ∃ c ∈ input.take n, ¬ is_valid c)
    (hout : 3 * n / 4 + 1 ≤ output.length) :
    ∃ buf, decode input n output = some (-1, buf) := by
  have hlen : (input.take n).length = n := by simp [hn]
  obtain ⟨cs, c, rest, e, h1, h2⟩ := exists_first_invalid _ hv
  have hcs : cs.length < n := by
    have := congrArg List.length e
    simp [hn] at this
    omega
  have hb := dec_run_length_le_start cs 0
  have hmono : 3 * cs.length / 4 ≤ 3 * n / 4 := Nat.div_le_div_right (by omega)
  have hloop := decode_loop_invalid input output cs 0 [] 0 0 0 c (rest ++ input.drop n) n
    (by
      have h := List.take_append_drop n input
      rw [e] at h
      simpa using h.symm)
    h1 h2 (by decide) (by simp; omega) hcs
  have hw0 : wr output [] = output := by simp [wr]
  rw [hw0] at hloop
  simp only [Nat.cast_zero, List.length_nil, List.nil_append] at hloop
  refine ⟨wr output (dec_run 0 0 cs), ?_⟩
  simp only [decode, hloop]

/-! ## The decoder on symbols of known value -/

theorem spec_symbol_facts : ∀ v, v < 64 →
    is_alphabet (spec_symbol v) ∧ spec_symbol v ≠ pad_symbol
      ∧ sym_value (spec_symbol v) = v := by
  decide

theorem sym_value_pad : sym_value pad_symbol = 0 := by decide

theorem six_bit_masks : ∀ v, v < 64 →
    (v &&& 0x30) >>> 4 = v >>> 4 ∧ (v &&& 0x3c) >>> 2 = v >>> 2 ∧ v >>> 4 < 4 ∧ v >>> 2 < 16
      ∧ v &&& 15 < 16 ∧ v &&& 3 < 4 := by
  decide

set_option maxRecDepth 100000 in
theorem add_eq_or_2 : ∀ a, a < 64 → ∀ q, q < 4 → (a <<< 2 + q) % 256 = (a <<< 2) ||| q := by
  decide

set_option maxRecDepth 100000 in
theorem add_eq_or_4 : ∀ p, p < 16 → ∀ q, q < 16 → (p <<< 4 + q) % 256 = (p <<< 4) ||| q := by
  decide

set_option maxRecDepth 100000 in
theorem add_eq_or_6 : ∀ p, p < 4 → ∀ v, v < 64 → (p <<< 6 + v) % 256 = (p <<< 6) ||| v := by
  decide

/-- Four alphabet symbols met in phase 0 make the loop of `decode` store the three bytes of
the reference and come back to phase 0 with nothing carried. -/
theorem dec_run_group (v0 v1 v2 v3 pc : Nat) (cs : List Nat)
    (h0 : v0 < 64) (h1 : v1 < 64) (h2 : v2 < 64) (h3 : v3 < 64) :
    dec_run 0 pc (spec_symbol v0 :: spec_symbol v1 :: spec_symbol v2 :: spec_symbol v3 :: cs)
      = [(v0 <<< 2) ||| (v1 >>> 4), ((v1 &&& 15) <<< 4) ||| (v2 >>> 2),
          ((v2 &&& 3) <<< 6) ||| v3] ++ dec_run 0 0 cs := by
  obtain ⟨-, n0, s0⟩ := spec_symbol_facts v0 h0
  obtain ⟨-, n1, s1⟩ := spec_symbol_facts v1 h1
  obtain ⟨-, n2, s2⟩ := spec_symbol_facts v2 h2
  obtain ⟨-, n3, s3⟩ := spec_symbol_facts v3 h3
  obtain ⟨a1, -, b1, -, c1, -⟩ := six_bit_masks v1 h1
  obtain ⟨-, a2, -, b2, -, c2⟩ := six_bit_masks v2 h2
  have e1 := add_eq_or_2 v0 h0 (v1 >>> 4) b1
  have e2 := add_eq_or_4 (v1 &&& 15) c1 (v2 >>> 2) b2
  have e3 := add_eq_or_6 (v2 &&& 3) c2 v3 h3
  simp [dec_run, dec_emit, dec_out, dec_pc, n0, n1, n2, n3, s0, s1, s2, s3, a1, a2, e1, e2, e3]

theorem six_bit_join_a : ∀ p, p < 4 → ∀ q, q < 16 →
    ((p <<< 4) ||| q) >>> 4 = p ∧ ((p <<< 4) ||| q) &&& 15 = q := by
  decide

theorem six_bit_join_b : ∀ p, p < 16 → ∀ q, q < 4 →
    ((p <<< 2) ||| q) >>> 2 = p ∧ ((p <<< 2) ||| q) &&& 3 = q := by
  decide

theorem six_bit_tail_a : ∀ p, p < 4 →
    p <<< 4 < 64 ∧ ((p <<< 4) &&& 0x30) >>> 4 = p ∧ ((p <<< 4) &&& 0xf) <<< 4 = 0 := by
  decide

theorem six_bit_tail_b : ∀ p, p < 16 →
    p <<< 2 < 64 ∧ ((p <<< 2) &&& 0x3c) >>> 2 = p ∧ ((p <<< 2) &&& 0x3) <<< 6 = 0 := by
  decide

set_option maxRecDepth 100000 in
theorem byte_rejoin : ∀ x, x < 256 →
    ((x >>> 2) <<< 2) ||| (x &&& 3) = x ∧ ((x >>> 4) <<< 4) ||| (x &&& 15) = x
      ∧ ((x >>> 6) <<< 6) ||| (x &&& 63) = x := by
  decide

/-- The padded tail of a one-byte group decodes to one byte. -/
theorem dec_run_tail1 (v0 p pc : Nat) (h0 : v0 < 64) (hp : p < 4) :
    dec_run 0 pc [spec_symbol v0, spec_symbol (p <<< 4), pad_symbol, pad_symbol]
      = [(v0 <<< 2) ||| p] := by
  obtain ⟨t1, t2, t3⟩ := six_bit_tail_a p hp
  obtain ⟨-, n0, s0⟩ := spec_symbol_facts v0 h0
  obtain ⟨-, n1, s1⟩ := spec_symbol_facts _ t1
  have e1 := add_eq_or_2 v0 h0 p hp
  simp [dec_run, dec_emit, dec_out, dec_pc, n0, n1, s0, s1, t2, t3, e1, sym_value_pad]

/-- The padded tail of a two-byte group decodes to two bytes. -/
theorem dec_run_tail2 (v0 v1 p pc : Nat) (h0 : v0 < 64) (h1 : v1 < 64) (hp : p < 16) :
    dec_run 0 pc [spec_symbol v0, spec_symbol v1, spec_symbol (p <<< 2), pad_symbol]
      = [(v0 <<< 2) ||| (v1 >>> 4), ((v1 &&& 15) <<< 4) ||| p] := by
  obtain ⟨t1, t2, t3⟩ := six_bit_tail_b p hp
  obtain ⟨-, n0, s0⟩ := spec_symbol_facts v0 h0
  obtain ⟨-, n1, s1⟩ := spec_symbol_facts v1 h1
  obtain ⟨-, n2, s2⟩ := spec_symbol_facts _ t1
  obtain ⟨a1, -, b1, -, c1, -⟩ := six_bit_masks v1 h1
  have e1 := add_eq_or_2 v0 h0 (v1 >>> 4) b1
  have e2 := add_eq_or_4 (v1 &&& 15) c1 p hp
  simp [dec_run, dec_emit, dec_out, dec_pc, n0, n1, n2, s0, s1, s2, t2, t3, a1, e1, e2,
    sym_value_pad]

/-- The loop of `decode`, run over the padded reference text of `b`, stores `b`. -/
theorem dec_run_spec_encode : ∀ (b : List Nat) (pc : Nat), (∀ x ∈ b, x < 256) →
    dec_run 0 pc (spec_encode b true) = b
  | [], pc, _ => by simp [spec_encode, dec_run]
  | [x], pc, h => by
    obtain ⟨-, -, -, h4, -, -, h7, -⟩ := byte_masks x (h x (by simp))
    obtain ⟨r1, -, -⟩ := byte_rejoin x (h x (by simp))
    simp [spec_encode, dec_run_tail1 _ _ pc h4 h7, r1]
  | [x, y], pc, h => by
    obtain ⟨-, -, -, h4, -, -, h7, -⟩ := byte_masks x (h x (by simp))
    obtain ⟨-, -, -, -, k5, -, -, k8, -⟩ := byte_masks y (h y (by simp))
    obtain ⟨r1, -, -⟩ := byte_rejoin x (h x (by simp))
    obtain ⟨-, r2, -⟩ := byte_rejoin y (h y (by simp))
    obtain ⟨j1, j2⟩ := six_bit_join_a _ h7 _ k5
    simp [spec_encode, dec_run_tail2 _ _ _ pc h4 (or_lt_64_a _ h7 _ k5) k8, j1, j2, r1, r2]
  | b0 :: b1 :: b2 :: rest, pc, h => by
    have ih := dec_run_spec_encode rest 0 (fun x hx => h x (by simp [hx]))
    obtain ⟨-, -, -, h4, -, -, h7, -⟩ := byte_masks b0 (h b0 (by simp))
    obtain ⟨-, -, -, -, k5, -, -, k8, -⟩ := byte_masks b1 (h b1 (by simp))
    obtain ⟨-, -, -, -, -, m6, -, -, m9, -⟩ := byte_masks b2 (h b2 (by simp))
    obtain ⟨r1, -, -⟩ := byte_rejoin b0 (h b0 (by simp))
    obtain ⟨-, r2, -⟩ := byte_rejoin b1 (h b1 (by simp))
    obtain ⟨-, -, r3⟩ := byte_rejoin b2 (h b2 (by simp))
    obtain ⟨j1, j2⟩ := six_bit_join_a _ h7 _ k5
    obtain ⟨j3, j4⟩ := six_bit_join_b _ k8 _ m6
    have hg := dec_run_group (b0 >>> 2) (((b0 &&& 3) <<< 4) ||| (b1 >>> 4))
      (((b1 &&& 15) <<< 2) ||| (b2 >>> 6)) (b2 &&& 63) pc (spec_encode rest true)
      h4 (or_lt_64_a _ h7 _ k5) (or_lt_64_b _ k8 _ m6) m9
    simp only [spec_encode, List.cons_append, List.nil_append, hg, j1, j2, j3, j4, r1, r2, r3,
      ih]

/-- Every symbol of the reference text is an alphabet symbol or the padding symbol, and
without padding every symbol is an alphabet symbol looked up at an index below 64. -/
theorem spec_encode_symbols : ∀ (b : List Nat) (padding : Bool), (∀ x ∈ b, x < 256) →
    ∀ c ∈ spec_encode b padding,
      (∃ v, v < 64 ∧ c = spec_symbol v) ∨ (padding = true ∧ c = pad_symbol)
  | [], _, _ => by simp [spec_encode]
  | [x], padding, h => by
    obtain ⟨-, -, -, h4, -, -, -, -, -, h10, -⟩ := byte_masks x (h x (by simp))
    intro c hc
    simp only [spec_encode, List.mem_append, List.mem_cons, List.mem_singleton,
      List.not_mem_nil, or_false] at hc
    rcases hc with (rfl | rfl) | hc
    · exact Or.inl ⟨_, h4, rfl⟩
    · exact Or.inl ⟨_, h10, rfl⟩
    · cases padding <;> simp at hc
      exact Or.inr ⟨rfl, hc⟩
  | [x, y], padding, h => by
    obtain ⟨-, -, -, h4, -, -, h7, -⟩ := byte_masks x (h x (by simp))
    obtain ⟨-, -, -, -, k5, -, -, -, -, -, k11⟩ := byte_masks y (h y (by simp))
    intro c hc
    simp only [spec_encode, List.mem_append, List.mem_cons, List.mem_singleton,
      List.not_mem_nil, or_false] at hc
    rcases hc with (rfl | rfl | rfl) | hc
    · exact Or.inl ⟨_, h4, rfl⟩
    · exact Or.inl ⟨_, or_lt_64_a _ h7 _ k5, rfl⟩
    · exact Or.inl ⟨_, k11, rfl⟩
    · cases padding <;> simp at hc
      exact Or.inr ⟨rfl, hc⟩
  | b0 :: b1 :: b2 :: rest, padding, h => by
    have ih := spec_encode_symbols rest padding (fun x hx => h x (by simp [hx]))
    obtain ⟨-, -, -, h4, -, -, h7, -⟩ := byte_masks b0 (h b0 (by simp))
    obtain ⟨-, -, -, -, k5, -, -, k8, -⟩ := byte_masks b1 (h b1 (by simp))
    obtain ⟨-, -, -, -, -, m6, -, -, m9, -⟩ := byte_masks b2 (h b2 (by simp))
    intro c hc
    simp only [spec_encode, List.mem_append, List.mem_cons, List.mem_singleton,
      List.not_mem_nil, or_false] at hc
    rcases hc with (rfl | rfl | rfl | rfl) | hc
    · exact Or.inl ⟨_, h4, rfl⟩
    · exact Or.inl ⟨_, or_lt_64_a _ h7 _ k5, rfl⟩
    · exact Or.inl ⟨_, or_lt_64_b _ k8 _ m6, rfl⟩
    · exact Or.inl ⟨_, m9, rfl⟩
    · exact ih c hc

theorem spec_encode_valid (b : List Nat) (padding : Bool) (h : ∀ x ∈ b, x < 256) :
    ∀ c ∈ spec_encode b padding, is_valid c := by
  intro c hc
  rcases spec_encode_symbols b padding h c hc with ⟨v, hv, rfl⟩ | ⟨-, rfl⟩
  · exact Or.inl (spec_symbol_facts v hv).1
  · exact Or.inr rfl

/-! ## Buffers after a call -/

theorem wr_take (orig t rest : List Nat) : (wr orig (t ++ rest)).take t.length = t := by
  simp [wr, List.take_append_eq_append_take]

theorem wr_getElem?_ge (orig w : List Nat) (j : Nat) (hj : w.length ≤ j) :
    (wr orig w)[j]? = orig[j]? := by
  unfold wr
  rw [List.getElem?_append_right hj, List.getElem?_drop]
  congr 1
  omega

theorem wr_getElem?_last (orig t : List Nat) (v : Nat) :
    (wr orig (t ++ [v]))[t.length]? = some v := by
  unfold wr
  rw [List.getElem?_append_left (by simp), List.getElem?_append_right (le_refl _)]
  simp

theorem spec_encode_pad (b : List Nat) :
    spec_encode b true
      = spec_encode b false ++ List.replicate ((3 - b.length % 3) % 3) pad_symbol := by
  have h3 : b.length % 3 = 0 ∨ b.length % 3 = 1 ∨ b.length % 3 = 2 := by omega
  rcases h3 with h | h | h
  · rw [spec_encode_mod0 b true h, spec_encode_mod0 b false h, h]
    simp
  · rw [spec_encode_mod1 b true h, spec_encode_mod1 b false h, h]
    simp [List.replicate]
  · rw [spec_encode_mod2 b true h, spec_encode_mod2 b false h, h]
    simp [List.replicate]

/-- Summary of a call of `encode` with a large enough output buffer, the empty input
included: the call returns, the count is the length of the reference text, the first
`count` cells hold the reference text, the buffer keeps its size, the cells after position
`count` are untouched, and for a non-empty input the cell at `count` holds zero. -/
theorem encode_total (input : List Nat) (n : Nat) (output : List Nat) (p : Int)
    (hn : n ≤ input.length) (hb : ∀ x ∈ input.take n, x < 256)
    (hout : 4 * ((n + 2) / 3) + 1 ≤ output.length) :
    ∃ buf, encode input n output p
        = some ((spec_encode (input.take n) (decide (p ≠ 0))).length, buf)
      ∧ buf.take (spec_encode (input.take n) (decide (p ≠ 0))).length
          = spec_encode (input.take n) (decide (p ≠ 0))
      ∧ buf.length = output.length
      ∧ (∀ j, (spec_encode (input.take n) (decide (p ≠ 0))).length < j → buf[j]? = output[j]?)
      ∧ (n ≠ 0 → buf[(spec_encode (input.take n) (decide (p ≠ 0))).length]? = some 0)
      ∧ (n = 0 → buf = output) := by
  have hlen : (input.take n).length = n := by simp [hn]
  have hsl := spec_encode_length (input.take n) (decide (p ≠ 0))
  rw [hlen] at hsl
  have hle : (spec_encode (input.take n) (decide (p ≠ 0))).length ≤ 4 * ((n + 2) / 3) := by
    rw [hsl]; split <;> omega
  by_cases h0 : n = 0
  · subst h0
    refine ⟨output, ?_, ?_, rfl, fun _ _ => rfl, fun h => absurd rfl h, fun _ => rfl⟩
    · simp [encode, spec_encode]
    · simp [spec_encode]
  · refine ⟨_, encode_eq input n output p hn hb hout h0, wr_take _ _ _, ?_, ?_, ?_, ?_⟩
    · exact wr_length _ _ (by simp only [List.length_append, List.length_singleton]; omega)
    · intro j hj
      exact wr_getElem?_ge _ _ _
        (by simp only [List.length_append, List.length_singleton]; omega)
    · intro _
      exact wr_getElem?_last _ _ _
    · intro h
      exact absurd h h0

theorem spec_encode_length_le (b : List Nat) (padding : Bool) :
    (spec_encode b padding).length ≤ 4 * ((b.length + 2) / 3) := by
  rw [spec_encode_length]
  split <;> omega

set_option maxRecDepth 100000 in
theorem alphabet_inverse_bounded : ∀ c, c < 123 → is_alphabet c →
    sym_value c < 64 ∧ spec_symbol (sym_value c) = c := by
  decide

theorem alphabet_inverse (c : Nat) (h : is_alphabet c) :
    sym_value c < 64 ∧ spec_symbol (sym_value c) = c :=
  alphabet_inverse_bounded c (valid_lt c (Or.inl h)).2 h

theorem dec_run_groups : ∀ (vs : List Nat) (pc : Nat), (∀ v ∈ vs, v < 64) →
    vs.length % 4 = 0 → dec_run 0 pc (vs.map spec_symbol) = spec_decode_groups vs
  | [], _, _, _ => by simp [dec_run, spec_decode_groups]
  | [_], _, _, h => by simp at h
  | [_, _], _, _, h => by simp at h
  | [_, _, _], _, _, h => by simp at h
  | v0 :: v1 :: v2 :: v3 :: rest, pc, hv, h => by
    have ih := dec_run_groups rest 0 (fun v hx => hv v (by simp [hx]))
      (by simp at h; omega)
    have hg := dec_run_group v0 v1 v2 v3 pc (rest.map spec_symbol) (hv v0 (by simp))
      (hv v1 (by simp)) (hv v2 (by simp)) (hv v3 (by simp))
    simp only [List.map_cons, hg, ih, spec_decode_groups]

theorem spec_decode_groups_length : ∀ vs : List Nat, vs.length % 4 = 0 →
    (spec_decode_groups vs).length = 3 * vs.length / 4
  | [], _ => by simp [spec_decode_groups]
  | [_], h => by simp at h
  | [_, _], h => by simp at h
  | [_, _, _], h => by simp at h
  | _ :: _ :: _ :: _ :: rest, h => by
    have ih := spec_decode_groups_length rest (by simp at h; omega)
    simp only [spec_decode_groups, List.length_append, List.length_cons, List.length_nil, ih]
    omega

/-- An index of `base64_alphabet` that holds an alphabet symbol is below 64: the two other
entries of the table are the padding symbol and the NUL of the string literal. -/
theorem alphabet_index_lt (i s : Nat) (h : base64_alphabet[i]? = some s)
    (ha : is_alphabet s) : i < 64 := by
  by_contra hge
  have hl : base64_alphabet.length = 66 := by decide
  have hi : i < 66 := by
    have := (List.getElem?_eq_some.1 h).1
    omega
  have h2 : i = 64 ∨ i = 65 := by omega
  rcases h2 with rfl | rfl
  · have e : base64_alphabet[64]? = some 61 := by decide
    rw [e] at h
    cases h
    exact absurd ha (by decide)
  · have e : base64_alphabet[65]? = some 0 := by decide
    rw [e] at h
    cases h
    exact absurd ha (by decide)

/-! ## Properties of `encode` and `decode` -/

/-- C1. Round trip with padding: for every byte sequence of length `n` held in `input`,
`n` within the range in which the counts are representable as `int` (`n <= 1610612733`),
`encode` with a non-zero `add_padding` returns a count of at most `2^31 - 1`, and `decode`
applied to the buffer and count it produced returns `n` (not `-1`) and leaves exactly the
`n` input bytes, followed by the terminator, at the front of the decoder's output buffer. -/
theorem roundtrip_with_padding (input : List Nat) (n : Nat) (output decoded : List Nat)
    (p : Int) (hn : n ≤ input.length) (hb : ∀ x ∈ input.take n, x < 256)
    (hout : 4 * ((n + 2) / 3) + 1 ≤ output.length) (hdec : n + 1 ≤ decoded.length)
    (hp : p ≠ 0) (hint : n ≤ 1610612733) :
    ∃ c text, encode input n output p = some (c, text)
      ∧ decode text c decoded = some ((n : Int), wr decoded (input.take n ++ [0]))
      ∧ (n : Int) ≠ -1
      ∧ (wr decoded (input.take n ++ [0])).take n = input.take n
      ∧ c ≤ 2147483647 := by
  have hlen : (input.take n).length = n := by simp [hn]
  have hd : decide (p ≠ 0) = true := by simp [hp]
  obtain ⟨buf, he, htake, hlb, -, -, -⟩ := encode_total input n output p hn hb hout
  rw [hd] at he htake
  have hle := spec_encode_length_le (input.take n) true
  rw [hlen] at hle
  have hrun := dec_run_spec_encode (input.take n) 0 hb
  have hdv := decode_valid buf (spec_encode (input.take n) true).length decoded
    (by omega)
    (by rw [htake]; exact spec_encode_valid _ _ hb)
    (by rw [htake, hrun, hlen]; exact hdec)
  rw [htake, hrun, hlen] at hdv
  refine ⟨_, buf, he, hdv, by omega, ?_, by omega⟩
  have := wr_take decoded (input.take n) [0]
  rwa [hlen] at this

/-- C2. The encoder equals the reference: for an input of `n <= 1610612733` bytes (the
range in which the count is representable as `int`) and a non-zero `add_padding`, the text
`encode` writes (the first `count` cells of the output buffer) is the reference text
`spec_encode` of the input bytes: four symbols for each complete group of three bytes, then
the two symbols and `==` of a trailing single byte, or the three symbols and `=` of a
trailing pair; the count is at most `2^31 - 1`. -/
theorem encode_matches_reference (input : List Nat) (n : Nat) (output : List Nat) (p : Int)
    (hn : n ≤ input.length) (hb : ∀ x ∈ input.take n, x < 256)
    (hout : 4 * ((n + 2) / 3) + 1 ≤ output.length) (hp : p ≠ 0) (hint : n ≤ 1610612733) :
    ∃ c buf, encode input n output p = some (c, buf)
      ∧ c = (spec_encode (input.take n) true).length
      ∧ buf.take c = spec_encode (input.take n) true
      ∧ c ≤ 2147483647 := by
  have hlen : (input.take n).length = n := by simp [hn]
  have hd : decide (p ≠ 0) = true := by simp [hp]
  obtain ⟨buf, he, htake, -⟩ := encode_total input n output p hn hb hout
  rw [hd] at he htake
  have hle := spec_encode_length_le (input.take n) true
  rw [hlen] at hle
  exact ⟨_, buf, he, rfl, htake, by omega⟩

/-- C3. Length law: for an input of `n <= 1610612733` bytes (the range in which the count
is representable as `int`), the count returned by `encode` is `4 * ceil(n/3)` with padding
and `ceil(4n/3)` without, it is at most `2^31 - 1`, and it is the number of symbols
written: the first `count` cells of the buffer hold symbols (alphabet or padding, hence
non-zero) and, for a non-empty input, the cell at `count` holds the terminator. -/
theorem encode_length_law (input : List Nat) (n : Nat) (output : List Nat) (p : Int)
    (hn : n ≤ input.length) (hb : ∀ x ∈ input.take n, x < 256)
    (hout : 4 * ((n + 2) / 3) + 1 ≤ output.length) (hint : n ≤ 1610612733) :
    ∃ c buf, encode input n output p = some (c, buf)
      ∧ c = (if p ≠ 0 then 4 * ((n + 2) / 3) else (4 * n + 2) / 3)
      ∧ c ≤ 2147483647
      ∧ (buf.take c).length = c
      ∧ (∀ s ∈ buf.take c, is_valid s ∧ s ≠ 0)
      ∧ (n ≠ 0 → buf[c]? = some 0) := by
  have hlen : (input.take n).length = n := by simp [hn]
  obtain ⟨buf, he, htake, hlb, -, hz, -⟩ := encode_total input n output p hn hb hout
  have hsl := spec_encode_length (input.take n) (decide (p ≠ 0))
  rw [hlen] at hsl
  have hle := spec_encode_length_le (input.take n) (decide (p ≠ 0))
  rw [hlen] at hle
  refine ⟨_, buf, he, ?_, by omega, ?_, ?_, hz⟩
  · rw [hsl]
    by_cases h : p = 0 <;> simp [h]
  · rw [htake]
  · intro s hs
    rw [htake] at hs
    have hv := spec_encode_valid _ _ hb s hs
    refine ⟨hv, ?_⟩
    have := (valid_lt s hv).1
    omega

/-- C5. Alphabet closure: for an input of `n <= 1610612733` bytes (the range in which the
count is representable as `int`, the count being at most `2^31 - 1`), every one of the
`count` symbols `encode` writes is an alphabet symbol or `=`; each data symbol (the first `ceil(4n/3)` symbols) is an entry of
`base64_alphabet` at an index below 64 and sits at no index of the table outside `0..63`;
and with `add_padding = 0` no `=` is written. That the call returns at all says that every
lookup into `base64_alphabet` was in bounds. -/
theorem encode_alphabet_closure (input : List Nat) (n : Nat) (output : List Nat) (p : Int)
    (hn : n ≤ input.length) (hb : ∀ x ∈ input.take n, x < 256)
    (hout : 4 * ((n + 2) / 3) + 1 ≤ output.length) (hint : n ≤ 1610612733) :
    ∃ c buf, encode input n output p = some (c, buf)
      ∧ c ≤ 2147483647
      ∧ (∀ s ∈ buf.take c, is_alphabet s ∨ s = pad_symbol)
      ∧ (∀ s ∈ buf.take ((4 * n + 2) / 3),
          (∃ v, v < 64 ∧ base64_alphabet[v]? = some s)
            ∧ ∀ i, base64_alphabet[i]? = some s → i < 64)
      ∧ (p = 0 → ∀ s ∈ buf.take c, s ≠ pad_symbol) := by
  have hlen : (input.take n).length = n := by simp [hn]
  obtain ⟨buf, he, htake, -⟩ := encode_total input n output p hn hb hout
  have hfalse := spec_encode_length (input.take n) false
  rw [hlen] at hfalse
  simp only [Bool.false_eq_true, if_false] at hfalse
  have hle := spec_encode_length_le (input.take n) (decide (p ≠ 0))
  rw [hlen] at hle
  refine ⟨_, buf, he, by omega, ?_, ?_, ?_⟩
  · intro s hs
    rw [htake] at hs
    exact spec_encode_valid _ _ hb s hs
  · intro s hs
    have hdata : buf.take ((4 * n + 2) / 3) = spec_encode (input.take n) false := by
      by_cases h : p = 0
      · have hd : decide (p ≠ 0) = false := by simp [h]
        rw [hd] at htake
        rw [← hfalse]
        exact htake
      · have hd : decide (p ≠ 0) = true := by simp [h]
        rw [hd, spec_encode_pad] at htake
        have := congrArg (List.take ((4 * n + 2) / 3)) htake
        rw [List.take_take] at this
        rw [← hfalse] at this ⊢
        simpa using this
    rw [hdata] at hs
    rcases spec_encode_symbols _ _ hb s hs with ⟨v, hv, rfl⟩ | ⟨h, -⟩
    · exact ⟨⟨v, hv, alphabet_lookup v hv⟩,
        fun i hi => alphabet_index_lt i _ hi (spec_symbol_facts v hv).1⟩
    · exact absurd h (by decide)
  · intro h0 s hs
    have hd : decide (p ≠ 0) = false := by simp [h0]
    rw [hd] at htake
    rw [hd, htake] at hs
    rcases spec_encode_symbols _ _ hb s hs with ⟨v, hv, rfl⟩ | ⟨h, -⟩
    · exact (spec_symbol_facts v hv).2.1
    · exact absurd h (by decide)

/-- C6. Effect of the padding flag: for an input of `n <= 1610612733` bytes (the range in
which both counts are representable as `int`), the text written with a non-zero
`add_padding` is the text written with `add_padding = 0` followed by `(3 - n mod 3) mod 3`
padding symbols, the count grows by that number and stays at most `2^31 - 1`, and when `n`
is a multiple of 3 the two calls return the same count and leave the same buffer. -/
theorem encode_padding_flag (input : List Nat) (n : Nat) (output : List Nat) (p : Int)
    (hn : n ≤ input.length) (hb : ∀ x ∈ input.take n, x < 256)
    (hout : 4 * ((n + 2) / 3) + 1 ≤ output.length) (hp : p ≠ 0) (hint : n ≤ 1610612733) :
    ∃ c0 buf0 c1 buf1, encode input n output 0 = some (c0, buf0)
      ∧ encode input n output p = some (c1, buf1)
      ∧ c1 = c0 + (3 - n % 3) % 3
      ∧ c1 ≤ 2147483647
      ∧ buf1.take c1 = buf0.take c0 ++ List.replicate ((3 - n % 3) % 3) pad_symbol
      ∧ (n % 3 = 0 → encode input n output p = encode input n output 0) := by
  have hlen : (input.take n).length = n := by simp [hn]
  have hd1 : decide (p ≠ 0) = true := by simp [hp]
  have hd0 : decide ((0 : Int) ≠ 0) = false := by simp
  obtain ⟨buf0, he0, htake0, -, -, -, hz0⟩ := encode_total input n output 0 hn hb hout
  obtain ⟨buf1, he1, htake1, -, -, -, hz1⟩ := encode_total input n output p hn hb hout
  rw [hd0] at he0 htake0
  rw [hd1] at he1 htake1
  have hpad := spec_encode_pad (input.take n)
  rw [hlen] at hpad
  have hle := spec_encode_length_le (input.take n) true
  rw [hlen] at hle
  refine ⟨_, buf0, _, buf1, he0, he1, ?_, by omega, ?_, ?_⟩
  · rw [hpad]
    simp
  · rw [htake1, htake0]
    exact hpad
  · intro h3
    by_cases h0 : n = 0
    · rw [he0, he1, hz0 h0, hz1 h0, hpad]
      simp [h3]
    · rw [encode_eq input n output p hn hb hout h0, encode_eq input n output 0 hn hb hout h0,
        hd0, hd1, hpad]
      simp [h3]

/-- C7. Decoder reference on complete unpadded groups: a text of `n` alphabet symbols, `n` a
multiple of 4 and at most 2863311530 (the range in which the count is representable as
`int`), is the image of a list `vs` of 6-bit values; `decode` returns `3n/4`, at most
`2^31 - 1`, and leaves, for each group `(v0,v1,v2,v3)`, the three bytes `(v0<<2)|(v1>>4)`,
`((v1&15)<<4)|(v2>>2)`, `((v2&3)<<6)|v3`, in order, followed by the terminator. -/
theorem decode_complete_groups (input : List Nat) (n : Nat) (output : List Nat)
    (hn : n ≤ input.length) (ha : ∀ c ∈ input.take n, is_alphabet c) (h4 : n % 4 = 0)
    (hout : 3 * n / 4 + 1 ≤ output.length) (hint : n ≤ 2863311530) :
    ∃ vs, (∀ v ∈ vs, v < 64) ∧ input.take n = vs.map spec_symbol
      ∧ decode input n output
          = some (((3 * n / 4 : Nat) : Int), wr output (spec_decode_groups vs ++ [0]))
      ∧ (wr output (spec_decode_groups vs ++ [0])).take (3 * n / 4) = spec_decode_groups vs
      ∧ 3 * n / 4 ≤ 2147483647 := by
  have hlen : (input.take n).length = n := by simp [hn]
  have hvs : ∀ v ∈ (input.take n).map sym_value, v < 64 := by
    intro v hv
    obtain ⟨c, hc, rfl⟩ := List.mem_map.1 hv
    exact (alphabet_inverse c (ha c hc)).1
  have hmap : input.take n = ((input.take n).map sym_value).map spec_symbol := by
    rw [List.map_map]
    conv_lhs => rw [← List.map_id (input.take n)]
    apply List.map_congr_left
    intro c hc
    simp [(alphabet_inverse c (ha c hc)).2]
  have hl4 : ((input.take n).map sym_value).length % 4 = 0 := by
    rw [List.length_map, hlen]; exact h4
  have hrun := dec_run_groups _ 0 hvs hl4
  rw [← hmap] at hrun
  have hgl := spec_decode_groups_length _ hl4
  rw [List.length_map, hlen] at hgl
  have hd := decode_valid input n output hn (fun c hc => Or.inl (ha c hc))
    (by rw [hrun, hgl]; exact hout)
  rw [hrun, hgl] at hd
  refine ⟨_, hvs, hmap, hd, ?_, by omega⟩
  have := wr_take output (spec_decode_groups ((input.take n).map sym_value)) [0]
  rwa [hgl] at this

/-- C8. Output buffer bound of `encode`: for an input of `n <= 1610612733` bytes (the range
in which `out_index` stays representable as `int`), with an output buffer of
`ceil(n/3)*4 + 1` cells or more the call returns (no access fell outside a buffer),
`count + 1` is at most `ceil(n/3)*4 + 1`, `count` is at most `2^31 - 1`, the buffer keeps its size and every cell after position `count` keeps its
content, and the result depends on the first `n` input bytes only: it is the same for every
input buffer that agrees on these `n` bytes, among them the buffer that holds just these
`n` bytes, where a read at index `n` or beyond would fall outside the buffer. -/
theorem encode_buffer_bound (input : List Nat) (n : Nat) (output : List Nat) (p : Int)
    (hn : n ≤ input.length) (hb : ∀ x ∈ input.take n, x < 256)
    (hout : 4 * ((n + 2) / 3) + 1 ≤ output.length) (hint : n ≤ 1610612733) :
    ∃ c buf, encode input n output p = some (c, buf)
      ∧ c + 1 ≤ 4 * ((n + 2) / 3) + 1
      ∧ c ≤ 2147483647
      ∧ buf.length = output.length
      ∧ (∀ j, c < j → buf[j]? = output[j]?)
      ∧ (∀ other : List Nat, n ≤ other.length → other.take n = input.take n →
          encode other n output p = some (c, buf))
      ∧ encode (input.take n) n output p = some (c, buf) := by
  have hlen : (input.take n).length = n := by simp [hn]
  obtain ⟨buf, he, -, hlb, hafter, -, -⟩ := encode_total input n output p hn hb hout
  have hle := spec_encode_length_le (input.take n) (decide (p ≠ 0))
  rw [hlen] at hle
  have hother : ∀ other : List Nat, n ≤ other.length → other.take n = input.take n →
      encode other n output p
        = some ((spec_encode (input.take n) (decide (p ≠ 0))).length, buf) := by
    intro other ho ht
    by_cases h0 : n = 0
    · subst h0
      rw [← he]
      simp [encode]
    · have h1 := encode_eq input n output p hn hb hout h0
      have h2 := encode_eq other n output p ho (by rw [ht]; exact hb) hout h0
      rw [ht] at h2
      rw [h2, ← h1, he]
  refine ⟨_, buf, he, by omega, by omega, hlb, hafter, hother, ?_⟩
  exact hother (input.take n) (by omega) (by rw [List.take_take, Nat.min_self])

/-- C9, evaluated at the failing input: on the empty input `encode` returns count 0 and
leaves the output buffer as it was, so the cell at position 0 still holds its old content
(here 7) and not a zero byte. -/
theorem encode_empty_no_terminator :
    encode [] 0 [7] 1 = some (0, [7]) ∧ ([7] : List Nat)[0]? ≠ some 0 := by
  decide

/-- C10. Empty input: `encode` with `in_len = 0` returns count 0 and leaves the output
buffer untouched (no symbol and no `=` is written), whatever `add_padding` is; `decode`
with `in_len = 0` returns count 0, writing only the terminator at position 0. -/
theorem empty_input (input output : List Nat) (p : Int) (hout : 0 < output.length) :
    encode input 0 output p = some (0, output)
      ∧ decode input 0 output = some (0, wr output [0])
      ∧ (wr output [0]).take 0 = [] := by
  refine ⟨by simp [encode], ?_, by simp⟩
  have := decode_valid input 0 output (Nat.zero_le _) (by simp) (by simpa [dec_run] using hout)
  simpa [dec_run] using this

/-- For a non-empty input `encode` leaves a zero byte at position `count`, whatever the
buffer held before the call. -/
theorem encode_terminator_of_nonempty (input : List Nat) (n : Nat) (output : List Nat)
    (p : Int) (hn : n ≤ input.length) (hb : ∀ x ∈ input.take n, x < 256)
    (hout : 4 * ((n + 2) / 3) + 1 ≤ output.length) (h0 : n ≠ 0) :
    ∃ c buf, encode input n output p = some (c, buf) ∧ buf[c]? = some 0 := by
  obtain ⟨buf, he, -, -, -, hz, -⟩ := encode_total input n output p hn hb hout
  exact ⟨_, buf, he, hz h0⟩

/-! ## Instances at concrete inputs -/

theorem roundtrip_with_padding_witness :
    (∀ x ∈ List.take 2 [102, 111], x < 256) ∧
      ∃ c text, encode [102, 111] 2 [0, 0, 0, 0, 0] 1 = some (c, text)
        ∧ decode text c [9, 9, 9] = some (2, [102, 111, 0]) := by
  obtain ⟨c, text, h1, h2, -, -, -⟩ := roundtrip_with_padding [102, 111] 2 [0, 0, 0, 0, 0]
    [9, 9, 9] 1 (by decide) (by decide) (by decide) (by decide) (by decide) (by decide)
  exact ⟨by decide, c, text, h1, h2⟩

theorem encode_matches_reference_witness :
    (∀ x ∈ List.take 1 [102, 7], x < 256) ∧
      ∃ c buf, encode [102, 7] 1 [9, 9, 9, 9, 9, 9] 1 = some (c, buf)
        ∧ c = 4 ∧ buf.take c = [90, 103, 61, 61] := by
  obtain ⟨c, buf, h1, h2, h3, -⟩ := encode_matches_reference [102, 7] 1 [9, 9, 9, 9, 9, 9] 1
    (by decide) (by decide) (by decide) (by decide) (by decide)
  exact ⟨by decide, c, buf, h1, h2, h3⟩

theorem encode_length_law_witness :
    (∀ x ∈ List.take 2 [102, 111], x < 256) ∧
      ∃ c buf, encode [102, 111] 2 [9, 9, 9, 9, 9] 0 = some (c, buf) ∧ c = 3
        ∧ (buf.take c).length = c ∧ (∀ s ∈ buf.take c, is_valid s ∧ s ≠ 0)
        ∧ ((2 : Nat) ≠ 0 → buf[c]? = some 0) := by
  obtain ⟨c, buf, h1, h2, -, h3⟩ := encode_length_law [102, 111] 2 [9, 9, 9, 9, 9] 0
    (by decide) (by decide) (by decide) (by decide)
  exact ⟨by decide, c, buf, h1, h2, h3⟩

theorem encode_alphabet_closure_witness :
    (∀ x ∈ List.take 2 [255, 0], x < 256) ∧
      ∃ c buf, encode [255, 0] 2 [9, 9, 9, 9, 9] 1 = some (c, buf)
        ∧ c ≤ 2147483647
        ∧ (∀ s ∈ buf.take c, is_alphabet s ∨ s = pad_symbol)
        ∧ (∀ s ∈ buf.take ((4 * 2 + 2) / 3),
            (∃ v, v < 64 ∧ base64_alphabet[v]? = some s)
              ∧ ∀ i, base64_alphabet[i]? = some s → i < 64)
        ∧ ((1 : Int) = 0 → ∀ s ∈ buf.take c, s ≠ pad_symbol) :=
  ⟨by decide, encode_alphabet_closure [255, 0] 2 [9, 9, 9, 9, 9] 1
    (by decide) (by decide) (by decide) (by decide)⟩

theorem encode_padding_flag_witness :
    (∀ x ∈ List.take 1 [102], x < 256) ∧
      ∃ c0 buf0 c1 buf1, encode [102] 1 [9, 9, 9, 9, 9] 0 = some (c0, buf0)
        ∧ encode [102] 1 [9, 9, 9, 9, 9] 1 = some (c1, buf1)
        ∧ c1 = c0 + 2
        ∧ buf1.take c1 = buf0.take c0 ++ [pad_symbol, pad_symbol] := by
  obtain ⟨c0, buf0, c1, buf1, h1, h2, h3, -, h4, -⟩ := encode_padding_flag [102] 1
    [9, 9, 9, 9, 9] 1 (by decide) (by decide) (by decide) (by decide) (by decide)
  exact ⟨by decide, c0, buf0, c1, buf1, h1, h2, h3, h4⟩

theorem decode_complete_groups_witness :
    (∀ c ∈ List.take 4 [84, 87, 70, 117], is_alphabet c) ∧
      ∃ vs, (∀ v ∈ vs, v < 64) ∧ List.take 4 [84, 87, 70, 117] = vs.map spec_symbol
        ∧ decode [84, 87, 70, 117] 4 [9, 9, 9, 9]
            = some (3, wr [9, 9, 9, 9] (spec_decode_groups vs ++ [0])) := by
  obtain ⟨vs, h1, h2, h3, -⟩ := decode_complete_groups [84, 87, 70, 117] 4 [9, 9, 9, 9]
    (by decide) (by decide) (by decide) (by decide) (by decide)
  exact ⟨by decide, vs, h1, h2, h3⟩

theorem encode_buffer_bound_witness :
    4 * ((3 + 2) / 3) + 1 ≤ [9, 9, 9, 9, 9, 9].length ∧
      ∃ c buf, encode [77, 97, 110, 5] 3 [9, 9, 9, 9, 9, 9] 0 = some (c, buf)
        ∧ c + 1 ≤ 4 * ((3 + 2) / 3) + 1
        ∧ buf.length = [9, 9, 9, 9, 9, 9].length
        ∧ (∀ j, c < j → buf[j]? = [9, 9, 9, 9, 9, 9][j]?) := by
  obtain ⟨c, buf, h1, h2, -, h3, h4, -⟩ := encode_buffer_bound [77, 97, 110, 5] 3
    [9, 9, 9, 9, 9, 9] 0 (by decide) (by decide) (by decide) (by decide)
  exact ⟨by decide, c, buf, h1, h2, h3, h4⟩

theorem empty_input_witness :
    0 < [7, 7].length ∧ encode [65] 0 [7, 7] 1 = some (0, [7, 7])
      ∧ decode [65] 0 [7, 7] = some (0, [0, 7]) := by
  obtain ⟨h1, h2, -⟩ := empty_input [65] [7, 7] 1 (by decide)
  exact ⟨by decide, h1, h2⟩

/-! ## Concrete vectors and the tables -/

/-- C11. Concrete vectors: `encode("Man", 1)` writes `TWFu` and `decode("TWFu")` gives `Man`;
`encode("f", 1)` writes `Zg==` and `decode("Zg==")` gives `f` with count 1, the cells after
the terminator untouched; `encode("fo", 1)` writes `Zm8=` and `decode("Zm8=")` gives `fo`
with count 2. The buffers start filled with 9 so that every written cell shows. -/
theorem concrete_vectors :
    encode [77, 97, 110] 3 [9, 9, 9, 9, 9, 9] 1 = some (4, [84, 87, 70, 117, 0, 9])
    ∧ decode [84, 87, 70, 117] 4 [9, 9, 9, 9, 9] = some (3, [77, 97, 110, 0, 9])
    ∧ encode [102] 1 [9, 9, 9, 9, 9, 9] 1 = some (4, [90, 103, 61, 61, 0, 9])
    ∧ decode [90, 103, 61, 61] 4 [9, 9, 9, 9, 9] = some (1, [102, 0, 9, 9, 9])
    ∧ encode [102, 111] 2 [9, 9, 9, 9, 9, 9] 1 = some (4, [90, 109, 56, 61, 0, 9])
    ∧ decode [90, 109, 56, 61] 4 [9, 9, 9, 9, 9] = some (2, [102, 111, 0, 9, 9]) := by
  decide

set_option maxRecDepth 100000 in
theorem decoding_of_alphabet : ∀ v, v < 64 →
    43 ≤ base64_alphabet.getD v 0 ∧ base64_alphabet.getD v 0 ≤ 122
      ∧ base64_alphabet[v]? = some (base64_alphabet.getD v 0)
      ∧ decoding[base64_alphabet.getD v 0 - 43]? = some (v : Int)
      ∧ base64_alphabet.getD v 0 ≠ 61 := by
  decide

set_option maxRecDepth 100000 in
theorem decoding_other_entries : ∀ j, j < 80 → j ≠ 61 - 43 → ¬ is_alphabet (j + 43) →
    decoding[j]? = some (-1) := by
  decide

set_option maxRecDepth 100000 in
theorem alphabet_onto : ∀ c, c < 123 → is_alphabet c →
    sym_value c < 64 ∧ base64_alphabet.getD (sym_value c) 0 = c := by
  decide

/-- C13. The table `decoding` inverts the alphabet: it has 80 entries; for every 6-bit value
`v` the symbol `A[v]` of `base64_alphabet` has a code in `43..122` and
`decoding[A[v] - 43] = v`; `decoding['=' - 43] = -2`, `=` being entry 64 of the alphabet;
every entry of `decoding` that is neither at the padding position nor at the position of a
data symbol is `-1`; the 64 data symbols are pairwise distinct and none is `=`. -/
theorem decoding_inverts_alphabet :
    decoding.length = 80
    ∧ (∀ v, v < 64 → 43 ≤ base64_alphabet.getD v 0 ∧ base64_alphabet.getD v 0 ≤ 122
        ∧ base64_alphabet[v]? = some (base64_alphabet.getD v 0)
        ∧ decoding[base64_alphabet.getD v 0 - 43]? = some (v : Int))
    ∧ base64_alphabet[64]? = some 61
    ∧ decoding[61 - 43]? = some (-2)
    ∧ (∀ j, j < 80 → j ≠ 61 - 43 → (∀ v, v < 64 → base64_alphabet.getD v 0 - 43 ≠ j) →
        decoding[j]? = some (-1))
    ∧ (∀ v w, v < 64 → w < 64 → base64_alphabet.getD v 0 = base64_alphabet.getD w 0 → v = w)
    ∧ (∀ v, v < 64 → base64_alphabet.getD v 0 ≠ 61) := by
  refine ⟨by decide, ?_, by decide, by decide, ?_, ?_, ?_⟩
  · intro v hv
    obtain ⟨h1, h2, h3, h4, -⟩ := decoding_of_alphabet v hv
    exact ⟨h1, h2, h3, h4⟩
  · intro j hj hne hno
    apply decoding_other_entries j hj hne
    intro ha
    obtain ⟨h1, h2⟩ := alphabet_onto (j + 43) (by omega) ha
    exact hno (sym_value (j + 43)) h1 (by rw [h2]; omega)
  · intro v w hv hw h
    obtain ⟨-, -, -, h4, -⟩ := decoding_of_alphabet v hv
    obtain ⟨-, -, -, k4, -⟩ := decoding_of_alphabet w hw
    rw [h, k4] at h4
    have := Option.some.inj h4
    omega
  · intro v hv
    exact (decoding_of_alphabet v hv).2.2.2.2

/-! ## Round trip without padding -/

/-- The unpadded tail of a one-byte group decodes to one byte. -/
theorem dec_run_tail1_unpadded (v0 p pc : Nat) (h0 : v0 < 64) (hp : p < 4) :
    dec_run 0 pc [spec_symbol v0, spec_symbol (p <<< 4)] = [(v0 <<< 2) ||| p] := by
  obtain ⟨t1, t2, t3⟩ := six_bit_tail_a p hp
  obtain ⟨-, n0, s0⟩ := spec_symbol_facts v0 h0
  obtain ⟨-, n1, s1⟩ := spec_symbol_facts _ t1
  have e1 := add_eq_or_2 v0 h0 p hp
  simp [dec_run, dec_emit, dec_out, dec_pc, n0, n1, s0, s1, t2, t3, e1]

/-- The unpadded tail of a two-byte group decodes to two bytes. -/
theorem dec_run_tail2_unpadded (v0 v1 p pc : Nat) (h0 : v0 < 64) (h1 : v1 < 64)
    (hp : p < 16) :
    dec_run 0 pc [spec_symbol v0, spec_symbol v1, spec_symbol (p <<< 2)]
      = [(v0 <<< 2) ||| (v1 >>> 4), ((v1 &&& 15) <<< 4) ||| p] := by
  obtain ⟨t1, t2, t3⟩ := six_bit_tail_b p hp
  obtain ⟨-, n0, s0⟩ := spec_symbol_facts v0 h0
  obtain ⟨-, n1, s1⟩ := spec_symbol_facts v1 h1
  obtain ⟨-, n2, s2⟩ := spec_symbol_facts _ t1
  obtain ⟨a1, -, b1, -, c1, -⟩ := six_bit_masks v1 h1
  have e1 := add_eq_or_2 v0 h0 (v1 >>> 4) b1
  have e2 := add_eq_or_4 (v1 &&& 15) c1 p hp
  simp [dec_run, dec_emit, dec_out, dec_pc, n0, n1, n2, s0, s1, s2, t2, t3, a1, e1, e2]

/-- The loop of `decode`, run over the unpadded reference text of `b`, stores `b`. -/
theorem dec_run_spec_encode_unpadded : ∀ (b : List Nat) (pc : Nat), (∀ x ∈ b, x < 256) →
    dec_run 0 pc (spec_encode b false) = b
  | [], pc, _ => by simp [spec_encode, dec_run]
  | [x], pc, h => by
    obtain ⟨-, -, -, h4, -, -, h7, -⟩ := byte_masks x (h x (by simp))
    obtain ⟨r1, -, -⟩ := byte_rejoin x (h x (by simp))
    simp [spec_encode, dec_run_tail1_unpadded _ _ pc h4 h7, r1]
  | [x, y], pc, h => by
    obtain ⟨-, -, -, h4, -, -, h7, -⟩ := byte_masks x (h x (by simp))
    obtain ⟨-, -, -, -, k5, -, -, k8, -⟩ := byte_masks y (h y (by simp))
    obtain ⟨r1, -, -⟩ := byte_rejoin x (h x (by simp))
    obtain ⟨-, r2, -⟩ := byte_rejoin y (h y (by simp))
    obtain ⟨j1, j2⟩ := six_bit_join_a _ h7 _ k5
    simp [spec_encode, dec_run_tail2_unpadded _ _ _ pc h4 (or_lt_64_a _ h7 _ k5) k8, j1, j2,
      r1, r2]
  | b0 :: b1 :: b2 :: rest, pc, h => by
    have ih := dec_run_spec_encode_unpadded rest 0 (fun x hx => h x (by simp [hx]))
    obtain ⟨-, -, -, h4, -, -, h7, -⟩ := byte_masks b0 (h b0 (by simp))
    obtain ⟨-, -, -, -, k5, -, -, k8, -⟩ := byte_masks b1 (h b1 (by simp))
    obtain ⟨-, -, -, -, -, m6, -, -, m9, -⟩ := byte_masks b2 (h b2 (by simp))
    obtain ⟨r1, -, -⟩ := byte_rejoin b0 (h b0 (by simp))
    obtain ⟨-, r2, -⟩ := byte_rejoin b1 (h b1 (by simp))
    obtain ⟨-, -, r3⟩ := byte_rejoin b2 (h b2 (by simp))
    obtain ⟨j1, j2⟩ := six_bit_join_a _ h7 _ k5
    obtain ⟨j3, j4⟩ := six_bit_join_b _ k8 _ m6
    have hg := dec_run_group (b0 >>> 2) (((b0 &&& 3) <<< 4) ||| (b1 >>> 4))
      (((b1 &&& 15) <<< 2) ||| (b2 >>> 6)) (b2 &&& 63) pc (spec_encode rest false)
      h4 (or_lt_64_a _ h7 _ k5) (or_lt_64_b _ k8 _ m6) m9
    simp only [spec_encode, List.cons_append, List.nil_append, hg, j1, j2, j3, j4, r1, r2, r3,
      ih]

/-- C14. Round trip without padding: for every byte sequence of length `n` held in `input`,
`n` within the range in which the counts are representable as `int` (`n <= 1610612733`),
`encode` with `add_padding = 0` returns a count of at most `2^31 - 1`, and `decode` applied
to the buffer and count it produced returns `n` (not `-1`) and leaves exactly the `n` input
bytes, followed by the terminator, at the front of the decoder's output buffer; when `n` is
not a multiple of 3 the length of the text that was decoded is not a multiple of 4. -/
theorem roundtrip_without_padding (input : List Nat) (n : Nat) (output decoded : List Nat)
    (hn : n ≤ input.length) (hb : ∀ x ∈ input.take n, x < 256)
    (hout : 4 * ((n + 2) / 3) + 1 ≤ output.length) (hdec : n + 1 ≤ decoded.length)
    (hint : n ≤ 1610612733) :
    ∃ c text, encode input n output 0 = some (c, text)
      ∧ decode text c decoded = some ((n : Int), wr decoded (input.take n ++ [0]))
      ∧ (n : Int) ≠ -1
      ∧ (wr decoded (input.take n ++ [0])).take n = input.take n
      ∧ (n % 3 ≠ 0 → c % 4 ≠ 0)
      ∧ c ≤ 2147483647 := by
  have hlen : (input.take n).length = n := by simp [hn]
  have hd : decide ((0 : Int) ≠ 0) = false := by simp
  obtain ⟨buf, he, htake, hlb, -, -, -⟩ := encode_total input n output 0 hn hb hout
  rw [hd] at he htake
  have hle := spec_encode_length_le (input.take n) false
  rw [hlen] at hle
  have hsl := spec_encode_length (input.take n) false
  rw [hlen] at hsl
  simp only [Bool.false_eq_true, if_false] at hsl
  have hrun := dec_run_spec_encode_unpadded (input.take n) 0 hb
  have hdv := decode_valid buf (spec_encode (input.take n) false).length decoded
    (by omega)
    (by rw [htake]; exact spec_encode_valid _ _ hb)
    (by rw [htake, hrun, hlen]; exact hdec)
  rw [htake, hrun, hlen] at hdv
  refine ⟨_, buf, he, hdv, by omega, ?_, ?_, by omega⟩
  · have := wr_take decoded (input.take n) [0]
    rwa [hlen] at this
  · intro h3
    rw [hsl]
    omega

theorem roundtrip_without_padding_witness :
    (∀ x ∈ List.take 2 [102, 111], x < 256) ∧
      ∃ c text, encode [102, 111] 2 [0, 0, 0, 0, 0] 0 = some (c, text)
        ∧ decode text c [9, 9, 9] = some (2, [102, 111, 0]) ∧ c % 4 ≠ 0 := by
  obtain ⟨c, text, h1, h2, -, -, h5, -⟩ := roundtrip_without_padding [102, 111] 2
    [0, 0, 0, 0, 0] [9, 9, 9] (by decide) (by decide) (by decide) (by decide) (by decide)
  exact ⟨by decide, c, text, h1, h2, h5 (by decide)⟩

/-! ## The decoder position by position -/

set_option maxRecDepth 100000 in
theorem sym_value_lt_bounded : ∀ c, c < 123 → is_valid c → sym_value c < 64 := by
  decide

theorem sym_value_lt (c : Nat) (h : is_valid c) : sym_value c < 64 :=
  sym_value_lt_bounded c (valid_lt c h).2 h

theorem carry_ok_step (bc c : Nat) (hbc : bc < 4) (hc : is_valid c) :
    carry_ok ((bc + 1) % 4) (dec_pc bc c) := by
  have hv := sym_value_lt c hc
  obtain ⟨-, -, -, -, c1, c2⟩ := six_bit_masks _ hv
  have h4 : bc = 0 ∨ bc = 1 ∨ bc = 2 ∨ bc = 3 := by omega
  rcases h4 with h | h | h | h <;> subst h
  · exact ⟨by simp, fun _ => ⟨_, hv, by simp [dec_pc]⟩, by simp, by simp⟩
  · exact ⟨by simp, by simp, fun _ => ⟨_, c1, by simp [dec_pc]⟩, by simp⟩
  · exact ⟨by simp, by simp, by simp, fun _ => ⟨_, c2, by simp [dec_pc]⟩⟩
  · exact ⟨fun _ => by simp [dec_pc], by simp, by simp, by simp⟩

theorem carry_ok_run : ∀ (cs : List Nat) (bc pc : Nat), bc < 4 → (∀ c ∈ cs, is_valid c) →
    carry_ok bc pc → carry_ok ((bc + cs.length) % 4) (dec_run_pc bc pc cs)
  | [], bc, pc, hbc, _, h => by simpa [dec_run_pc, Nat.mod_eq_of_lt hbc] using h
  | c :: cs, bc, pc, hbc, hv, _ => by
    have ih := carry_ok_run cs ((bc + 1) % 4) (dec_pc bc c) (Nat.mod_lt _ (by decide))
      (fun x hx => hv x (by simp [hx])) (carry_ok_step bc c hbc (hv c (by simp)))
    have hmod : ((bc + 1) % 4 + cs.length) % 4 = (bc + (cs.length + 1)) % 4 := by omega
    rw [hmod] at ih
    simpa [dec_run_pc] using ih

/-- The state of `decode` when the iteration at position `i` starts and the state that
iteration leaves, for a text whose first `i + 1` characters are accepted. -/
theorem decode_step_at (input : List Nat) (n : Nat) (output : List Nat)
    (hn : n ≤ input.length) (hout : 3 * n / 4 + 1 ≤ output.length) (i : Nat) (hi : i < n)
    (hv : ∀ c ∈ input.take (i + 1), is_valid c) :
    ∃ c W PC TC, input[i]? = some c ∧ is_valid c ∧ carry_ok (i % 4) PC
      ∧ decode_loop input i 0
          { output := output, out_index := 0, byte_counter := 0, partial_char := 0,
            temp_char := 0, out_char := 0 }
        = some (Except.ok ⟨wr output W, W.length, ((i % 4 : Nat) : Int), PC, TC, 0⟩)
      ∧ decode_body input i ⟨wr output W, W.length, ((i % 4 : Nat) : Int), PC, TC, 0⟩
        = some (Except.ok ⟨wr output (W ++ dec_emit (i % 4) PC c),
            W.length + (dec_emit (i % 4) PC c).length, (((i % 4 + 1) % 4 : Nat) : Int),
            dec_pc (i % 4) c, sym_value c, 0⟩)
      ∧ W.length + (dec_emit (i % 4) PC c).length ≤ 3 * n / 4 := by
  have hil : i < input.length := by omega
  have hc : input[i]? = some input[i] := List.getElem?_eq_getElem hil
  have hts : input.take (i + 1) = input.take i ++ [input[i]] := by
    rw [List.take_succ, hc]; rfl
  have hcv : is_valid input[i] :=
    hv _ (by rw [hts]; exact List.mem_append.2 (Or.inr (List.mem_singleton.2 rfl)))
  have hvi : ∀ c ∈ input.take i, is_valid c :=
    fun c h => hv c (by rw [hts]; exact List.mem_append.2 (Or.inl h))
  have hlen : (input.take i).length = i := by simp; omega
  have hrl := dec_run_length_le_start (input.take i) 0
  rw [hlen] at hrl
  have hel := dec_emit_length_le (i % 4) (dec_run_pc 0 0 (input.take i)) input[i]
  have hsum : (dec_run 0 0 (input.take i)).length
      + (dec_emit (i % 4) (dec_run_pc 0 0 (input.take i)) input[i]).length ≤ 3 * n / 4 := by
    have hel1 : (dec_emit (i % 4) (dec_run_pc 0 0 (input.take i)) input[i]).length ≤ 1 := by
      split at hel <;> omega
    have hel0 : i % 4 = 0 →
        (dec_emit (i % 4) (dec_run_pc 0 0 (input.take i)) input[i]).length = 0 := by
      intro h
      rw [if_pos h] at hel
      omega
    have h4 : i % 4 = 0 ∨ i % 4 = 1 ∨ i % 4 = 2 ∨ i % 4 = 3 := by omega
    rcases h4 with h | h | h | h
    · have := hel0 h
      omega
    all_goals omega
  have hloop := decode_loop_valid input output (input.take i) 0 [] 0 0 0 (input.drop i)
    (by simp) hvi (by decide) (by simp; omega)
  have hw0 : wr output [] = output := by simp [wr]
  rw [hw0, hlen] at hloop
  simp only [List.length_nil, Nat.zero_add, List.nil_append, Nat.cast_zero] at hloop
  have hcar := carry_ok_run (input.take i) 0 0 (by decide) hvi
    ⟨fun _ => rfl, by simp, by simp, by simp⟩
  rw [hlen, Nat.zero_add] at hcar
  have hbody := decode_body_valid input output (dec_run 0 0 (input.take i)) i input[i]
    (i % 4) (dec_run_pc 0 0 (input.take i)) (dec_run_tc (input.take i) 0) hc hcv
    (Nat.mod_lt _ (by decide)) (by omega)
  exact ⟨input[i], _, _, _, hc, hcv, hcar, hloop, hbody, hsum⟩

theorem dec_emit_eq (bc pc c : Nat) :
    dec_emit bc pc c = [] ∨ dec_emit bc pc c = [dec_out bc pc c % 256] := by
  unfold dec_emit
  split <;> simp

theorem dec_emit_ne_nil_iff (bc pc c : Nat) :
    dec_emit bc pc c ≠ [] ↔ bc ≠ 0 ∧ (c ≠ pad_symbol ∨ dec_out bc pc c > 0) := by
  unfold dec_emit
  by_cases h : bc ≠ 0 ∧ (c ≠ pad_symbol ∨ dec_out bc pc c > 0)
  · simp only [if_pos h, ne_eq, List.cons_ne_nil, not_false_eq_true, true_iff]
    exact h
  · simp only [if_neg h, ne_eq, not_true_eq_false, false_iff]
    exact h

/-- What the accessors `emits_at`, `out_char_at` and `partial_char_at` are at a position `i`
whose iteration is reached with accepted characters only. -/
theorem emission_at (input : List Nat) (n : Nat) (output : List Nat)
    (hn : n ≤ input.length) (hout : 3 * n / 4 + 1 ≤ output.length) (i : Nat) (hi : i < n)
    (hv : ∀ c ∈ input.take (i + 1), is_valid c) :
    ∃ c s s1, input[i]? = some c ∧ is_valid c
      ∧ decode_loop input i 0
          { output := output, out_index := 0, byte_counter := 0, partial_char := 0,
            temp_char := 0, out_char := 0 } = some (Except.ok s)
      ∧ decode_body input i s = some (Except.ok s1)
      ∧ s.byte_counter = ((i % 4 : Nat) : Int) ∧ s.out_char = 0
      ∧ s1.temp_char = sym_value c
      ∧ carry_ok (i % 4) s.partial_char
      ∧ partial_char_at input output i = s.partial_char
      ∧ out_char_at input output i = dec_out (i % 4) s.partial_char c
      ∧ (emits_at input output i = true ↔ dec_emit (i % 4) s.partial_char c ≠ [])
      ∧ s1.out_index = s.out_index + (dec_emit (i % 4) s.partial_char c).length
      ∧ (dec_emit (i % 4) s.partial_char c ≠ [] →
          s1.output[s.out_index]? = some (dec_out (i % 4) s.partial_char c % 256)) := by
  obtain ⟨c, W, PC, TC, hc, hcv, hcar, hloop, hbody, -⟩ :=
    decode_step_at input n output hn hout i hi hv
  refine ⟨c, _, _, hc, hcv, hloop, hbody, rfl, rfl, rfl, hcar, ?_, ?_, ?_, rfl, ?_⟩
  · simp only [partial_char_at, hloop]
  · simp only [out_char_at, hloop, hc, Int.toNat_ofNat]
  · simp only [emits_at, hloop, hbody, decide_eq_true_eq]
    rcases dec_emit_eq (i % 4) PC c with h | h <;> simp [h]
  · intro hne
    rcases dec_emit_eq (i % 4) PC c with h | h
    · exact absurd h hne
    · simp only [h]
      exact wr_getElem?_last output W _

/-! ## The store decision of `decode` -/

theorem take_succ_subset (input : List Nat) (n i : Nat) (hi : i < n)
    (hv : ∀ c ∈ input.take n, is_valid c) : ∀ c ∈ input.take (i + 1), is_valid c := by
  intro c hc
  apply hv
  have h : input.take (i + 1) = (input.take n).take (i + 1) := by
    rw [List.take_take]
    congr 1
    omega
  rw [h] at hc
  exact List.mem_of_mem_take hc

/-- Emission criterion shared by the statements on the decoder's store decision. -/
theorem emits_at_iff (input : List Nat) (n : Nat) (output : List Nat)
    (hn : n ≤ input.length) (hout : 3 * n / 4 + 1 ≤ output.length) (i : Nat) (hi : i < n)
    (hv : ∀ c ∈ input.take (i + 1), is_valid c) :
    ∃ c, input[i]? = some c
      ∧ (emits_at input output i = true
          ↔ i % 4 ≠ 0 ∧ (c ≠ pad_symbol ∨ out_char_at input output i > 0))
      ∧ (c = pad_symbol → i % 4 ≠ 0 →
          out_char_at input output i = partial_char_at input output i) := by
  obtain ⟨c, s, s1, hc, -, -, -, -, -, -, -, hpc, hoc, hem, -, -⟩ :=
    emission_at input n output hn hout i hi hv
  refine ⟨c, hc, ?_, ?_⟩
  · rw [hem, hoc, dec_emit_ne_nil_iff]
  · intro hp h0
    rw [hoc, hpc, hp]
    have h4 : i % 4 = 1 ∨ i % 4 = 2 ∨ i % 4 = 3 := by omega
    rcases h4 with h | h | h <;> simp [dec_out, h, sym_value_pad]

set_option maxRecDepth 100000 in
theorem sum_disjoint_2 : ∀ a, a < 64 → ∀ q, q < 4 →
    (a <<< 2) % 4 = 0 ∧ a <<< 2 + q < 256 ∧ a <<< 2 + q = (a <<< 2) ||| q := by
  decide

set_option maxRecDepth 100000 in
theorem sum_disjoint_4 : ∀ p, p < 16 → ∀ q, q < 16 →
    (p <<< 4) % 16 = 0 ∧ p <<< 4 + q < 256 ∧ p <<< 4 + q = (p <<< 4) ||| q := by
  decide

set_option maxRecDepth 100000 in
theorem sum_disjoint_6 : ∀ p, p < 4 → ∀ v, v < 64 →
    (p <<< 6) % 64 = 0 ∧ p <<< 6 + v < 256 ∧ p <<< 6 + v = (p <<< 6) ||| v := by
  decide

theorem six_bit_addends : ∀ v, v < 64 → (v &&& 0x30) >>> 4 < 4 ∧ (v &&& 0x3c) >>> 2 < 16 := by
  decide

/-- Within the range `n <= 2863311530` the `int` variable `out_index` of `decode` does not
overflow: after every number `k <= n` of iterations over accepted characters it is at most
`floor(3k/4)`, which is at most `2^31 - 1`. -/
theorem decode_out_index_bound (input : List Nat) (n : Nat) (output : List Nat)
    (hn : n ≤ input.length) (hout : 3 * n / 4 + 1 ≤ output.length) (hint : n ≤ 2863311530)
    (k : Nat) (hk : k ≤ n) (hv : ∀ c ∈ input.take k, is_valid c) :
    ∃ s, decode_loop input k 0
          { output := output, out_index := 0, byte_counter := 0, partial_char := 0,
            temp_char := 0, out_char := 0 } = some (Except.ok s)
      ∧ s.out_index ≤ 3 * k / 4 ∧ s.out_index ≤ 2147483647 := by
  have hlen : (input.take k).length = k := by simp; omega
  have hrl := dec_run_length_le_start (input.take k) 0
  rw [hlen] at hrl
  have hmono : 3 * k / 4 ≤ 3 * n / 4 := Nat.div_le_div_right (by omega)
  have hloop := decode_loop_valid input output (input.take k) 0 [] 0 0 0 (input.drop k)
    (by simp) hv (by decide) (by simp only [List.length_nil, Nat.zero_add]; omega)
  have hw0 : wr output [] = output := by simp [wr]
  rw [hw0, hlen] at hloop
  simp only [List.length_nil, Nat.zero_add, List.nil_append, Nat.cast_zero] at hloop
  exact ⟨_, hloop, hrl, by simp only []; omega⟩

theorem dec_emit_length_alphabet (bc pc c : Nat) (hc : c ≠ pad_symbol) :
    (dec_emit bc pc c).length = if bc = 0 then 0 else 1 := by
  unfold dec_emit
  by_cases h : bc = 0
  · simp [h]
  · simp [h, hc]

theorem dec_run_length_alphabet : ∀ (cs : List Nat) (bc pc : Nat), bc < 4 →
    (∀ c ∈ cs, c ≠ pad_symbol) →
    (dec_run bc pc cs).length + (bc + cs.length + 3) / 4 = cs.length + (bc + 3) / 4
  | [], bc, pc, _, _ => by simp [dec_run]
  | c :: cs, bc, pc, hbc, hc => by
    have ih := dec_run_length_alphabet cs ((bc + 1) % 4) (dec_pc bc c)
      (Nat.mod_lt _ (by decide)) (fun x hx => hc x (by simp [hx]))
    have he := dec_emit_length_alphabet bc pc c (hc c (by simp))
    simp only [dec_run, List.length_append, List.length_cons]
    generalize (dec_emit bc pc c).length = e at he
    generalize (dec_run ((bc + 1) % 4) (dec_pc bc c) cs).length = r at ih
    split at he <;> omega

/-- C16. Decoder output bound: with an output buffer of `floor(3n/4) + 1` cells, whenever
`decode` returns a count `r` (not `-1`) on a text of length `n <= 2863311530` (the range in
which the count is representable as `int`), `r` is at most `floor(3n/4)`, hence at most
`2^31 - 1`, and equal to `floor(3n/4)` when the text contains no `=`; the buffer keeps its
size, the cell at position `r` holds the terminator and every cell after it keeps its
content. -/
theorem decode_output_bound (input : List Nat) (n : Nat) (output : List Nat)
    (hn : n ≤ input.length) (hout : 3 * n / 4 + 1 ≤ output.length) (r : Int)
    (buf : List Nat) (hdec : decode input n output = some (r, buf)) (hr : r ≠ -1)
    (hint : n ≤ 2863311530) :
    0 ≤ r ∧ r ≤ ((3 * n / 4 : Nat) : Int) ∧ r ≤ 2147483647
      ∧ ((∀ c ∈ input.take n, c ≠ pad_symbol) → r = ((3 * n / 4 : Nat) : Int))
      ∧ buf.length = output.length
      ∧ buf[r.toNat]? = some 0
      ∧ (∀ j, r.toNat < j → buf[j]? = output[j]?) := by
  have hlen : (input.take n).length = n := by simp [hn]
  by_cases hv : ∃ c ∈ input.take n, ¬ is_valid c
  · obtain ⟨buf', hd⟩ := decode_invalid input n output hn hv hout
    rw [hd] at hdec
    cases hdec
    exact absurd rfl hr
  · have hall : ∀ c ∈ input.take n, is_valid c := by
      intro c hc
      by_contra h
      exact hv ⟨c, hc, h⟩
    have hb := dec_run_length_le_start (input.take n) 0
    rw [hlen] at hb
    have hd := decode_valid input n output hn hall (by omega)
    rw [hd] at hdec
    cases hdec
    refine ⟨by omega, by omega, by omega, ?_, ?_, ?_, ?_⟩
    · intro hnp
      have := dec_run_length_alphabet (input.take n) 0 0 (by decide) hnp
      rw [hlen] at this
      have h4 : n % 4 = 0 ∨ n % 4 = 1 ∨ n % 4 = 2 ∨ n % 4 = 3 := by omega
      rcases h4 with h | h | h | h <;> omega
    · exact wr_length _ _ (by simp only [List.length_append, List.length_singleton]; omega)
    · rw [Int.toNat_ofNat]
      exact wr_getElem?_last _ _ _
    · intro j hj
      rw [Int.toNat_ofNat] at hj
      exact wr_getElem?_ge _ _ _
        (by simp only [List.length_append, List.length_singleton]; omega)

theorem decode_output_bound_witness :
    decode [90, 103, 61, 61] 4 [9, 9, 9, 9] = some (1, [102, 0, 9, 9]) ∧ (1 : Int) ≠ -1
      ∧ (1 : Int) ≤ ((3 * 4 / 4 : Nat) : Int)
      ∧ ([102, 0, 9, 9] : List Nat)[(1 : Int).toNat]? = some 0 := by
  obtain ⟨-, h2, -, -, -, h5, -⟩ := decode_output_bound [90, 103, 61, 61] 4 [9, 9, 9, 9]
    (by decide) (by decide) 1 [102, 0, 9, 9] (by decide) (by decide) (by decide)
  exact ⟨by decide, by decide, h2, h5⟩

/-! ## Re-encoding a decoded text -/

set_option maxRecDepth 100000 in
theorem group_byte_0 : ∀ a, a < 64 → ∀ q, q < 4 →
    ((a <<< 2) ||| q) < 256 ∧ ((a <<< 2) ||| q) >>> 2 = a ∧ ((a <<< 2) ||| q) &&& 3 = q := by
  decide

set_option maxRecDepth 100000 in
theorem group_byte_1 : ∀ p, p < 16 → ∀ q, q < 16 →
    ((p <<< 4) ||| q) < 256 ∧ ((p <<< 4) ||| q) >>> 4 = p ∧ ((p <<< 4) ||| q) &&& 15 = q := by
  decide

set_option maxRecDepth 100000 in
theorem group_byte_2 : ∀ p, p < 4 → ∀ v, v < 64 →
    ((p <<< 6) ||| v) < 256 ∧ ((p <<< 6) ||| v) >>> 6 = p ∧ ((p <<< 6) ||| v) &&& 63 = v := by
  decide

/-- Encoding the bytes of complete groups gives back the symbols of their 6-bit values,
with or without padding. -/
theorem spec_encode_decode_groups : ∀ (vs : List Nat) (padding : Bool),
    (∀ v ∈ vs, v < 64) → vs.length % 4 = 0 →
    spec_encode (spec_decode_groups vs) padding = vs.map spec_symbol
      ∧ ∀ x ∈ spec_decode_groups vs, x < 256
  | [], _, _, _ => by simp [spec_decode_groups, spec_encode]
  | [_], _, _, h => by simp at h
  | [_, _], _, _, h => by simp at h
  | [_, _, _], _, _, h => by simp at h
  | v0 :: v1 :: v2 :: v3 :: rest, padding, hv, h => by
    obtain ⟨ih1, ih2⟩ := spec_encode_decode_groups rest padding
      (fun v hx => hv v (by simp [hx])) (by simp at h; omega)
    have h0 := hv v0 (by simp)
    have h1 := hv v1 (by simp)
    have h2 := hv v2 (by simp)
    have h3 := hv v3 (by simp)
    obtain ⟨-, -, b1, -, c1, -⟩ := six_bit_masks v1 h1
    obtain ⟨-, -, -, b2, -, c2⟩ := six_bit_masks v2 h2
    obtain ⟨g1, g2, g3⟩ := group_byte_0 v0 h0 _ b1
    obtain ⟨k1, k2, k3⟩ := group_byte_1 _ c1 _ b2
    obtain ⟨m1, m2, m3⟩ := group_byte_2 _ c2 v3 h3
    obtain ⟨-, r1, -⟩ := byte_rejoin v1 (by omega)
    obtain ⟨r2, -, -⟩ := byte_rejoin v2 (by omega)
    constructor
    · simp only [spec_decode_groups, List.cons_append, List.nil_append, spec_encode, g2, g3,
        k2, k3, m2, m3, r1, r2, List.map_cons]
      have e : ([] : List Nat).append (spec_decode_groups rest) = spec_decode_groups rest := rfl
      rw [e, ih1]
    · intro x hx
      simp only [spec_decode_groups, List.cons_append, List.nil_append, List.mem_cons] at hx
      rcases hx with rfl | rfl | rfl | hx
      · exact g1
      · exact k1
      · exact m1
      · exact ih2 x hx

/-- The result of `decode` on a text of alphabet symbols whose length is a multiple of 4:
the count, the stored bytes `G`, and the fact that the reference encoder maps `G` back to
the text. -/
theorem decode_canonical (input : List Nat) (n : Nat) (output : List Nat)
    (hn : n ≤ input.length) (ha : ∀ c ∈ input.take n, is_alphabet c) (h4 : n % 4 = 0)
    (hout : 3 * n / 4 + 1 ≤ output.length) :
    ∃ G, decode input n output = some (((3 * n / 4 : Nat) : Int), wr output (G ++ [0]))
      ∧ G.length = 3 * n / 4 ∧ (∀ x ∈ G, x < 256)
      ∧ ∀ padding, spec_encode G padding = input.take n := by
  have hlen : (input.take n).length = n := by simp [hn]
  have hvs : ∀ v ∈ (input.take n).map sym_value, v < 64 := by
    intro v hv
    obtain ⟨c, hc, rfl⟩ := List.mem_map.1 hv
    exact (alphabet_inverse c (ha c hc)).1
  have hmap : input.take n = ((input.take n).map sym_value).map spec_symbol := by
    rw [List.map_map]
    conv_lhs => rw [← List.map_id (input.take n)]
    apply List.map_congr_left
    intro c hc
    simp [(alphabet_inverse c (ha c hc)).2]
  have hl4 : ((input.take n).map sym_value).length % 4 = 0 := by
    rw [List.length_map, hlen]; exact h4
  have hrun := dec_run_groups _ 0 hvs hl4
  rw [← hmap] at hrun
  have hgl := spec_decode_groups_length _ hl4
  rw [List.length_map, hlen] at hgl
  have hd := decode_valid input n output hn (fun c hc => Or.inl (ha c hc))
    (by rw [hrun, hgl]; exact hout)
  rw [hrun, hgl] at hd
  refine ⟨_, hd, hgl, fun x hx => (spec_encode_decode_groups _ true hvs hl4).2 x hx, ?_⟩
  intro padding
  rw [(spec_encode_decode_groups _ padding hvs hl4).1, ← hmap]

/-- C17. Re-encoding canonical text: for a text of `n` alphabet symbols, `n` a multiple of
4 and at most `2^31 - 1` (the text length is the count `encode` has to return as an `int`),
`decode` returns `3n/4` bytes, at most 1610612733, and `encode` applied to the decoder's
output buffer with that count writes the `n` symbols of the text again, whatever
`add_padding` is. Hence `decode` is injective on such texts: another such text whose
decoding has the same count and the same bytes is the same text. -/
theorem reencode_canonical (input : List Nat) (n : Nat) (output reencoded : List Nat)
    (p : Int) (hn : n ≤ input.length) (ha : ∀ c ∈ input.take n, is_alphabet c)
    (h4 : n % 4 = 0) (hout : 3 * n / 4 + 1 ≤ output.length)
    (hre : n + 1 ≤ reencoded.length) (hint : n ≤ 2147483647) :
    ∃ bytes, decode input n output = some (((3 * n / 4 : Nat) : Int), bytes)
      ∧ 3 * n / 4 ≤ 1610612733
      ∧ (∃ text, encode bytes (3 * n / 4) reencoded p = some (n, text)
          ∧ text.take n = input.take n)
      ∧ (∀ (other : List Nat) (m : Nat) (out3 bytes3 : List Nat) (c3 : Int),
          m ≤ other.length → m ≤ 2147483647 → (∀ c ∈ other.take m, is_alphabet c) →
          m % 4 = 0 → 3 * m / 4 + 1 ≤ out3.length → decode other m out3 = some (c3, bytes3) →
          c3 = ((3 * n / 4 : Nat) : Int) → bytes3.take (3 * n / 4) = bytes.take (3 * n / 4) →
          other.take m = input.take n) := by
  obtain ⟨G, hd, hgl, hgb, hge⟩ := decode_canonical input n output hn ha h4 hout
  have htk : (wr output (G ++ [0])).take (3 * n / 4) = G := by
    have := wr_take output G [0]
    rwa [hgl] at this
  have hwl : (wr output (G ++ [0])).length = output.length :=
    wr_length _ _ (by simp only [List.length_append, List.length_singleton]; omega)
  refine ⟨_, hd, by omega, ?_, ?_⟩
  · obtain ⟨text, he, htake, -⟩ := encode_total (wr output (G ++ [0])) (3 * n / 4)
      reencoded p (by omega) (by rw [htk]; exact hgb) (by omega)
    rw [htk, hge] at he htake
    have hl : (input.take n).length = n := by simp [hn]
    rw [hl] at he htake
    exact ⟨text, he, htake⟩
  · intro other m out3 bytes3 c3 hm _ ha3 hm4 hout3 hd3 hc3 hb3
    obtain ⟨G3, hd3', hgl3, -, hge3⟩ := decode_canonical other m out3 hm ha3 hm4 hout3
    rw [hd3'] at hd3
    cases hd3
    have hcount : 3 * m / 4 = 3 * n / 4 := by omega
    have htk3 : (wr out3 (G3 ++ [0])).take (3 * n / 4) = G3 := by
      have := wr_take out3 G3 [0]
      rwa [hgl3, hcount] at this
    rw [htk3, htk] at hb3
    rw [← hge3 true, ← hge true, hb3]

theorem reencode_canonical_witness :
    (∀ c ∈ List.take 4 [84, 87, 70, 117], is_alphabet c) ∧
      ∃ bytes, decode [84, 87, 70, 117] 4 [9, 9, 9, 9] = some (3, bytes)
        ∧ ∃ text, encode bytes (3 * 4 / 4) [9, 9, 9, 9, 9] 0 = some (4, text)
          ∧ text.take 4 = [84, 87, 70, 117] := by
  obtain ⟨bytes, h1, -, h2, -⟩ := reencode_canonical [84, 87, 70, 117] 4 [9, 9, 9, 9]
    [9, 9, 9, 9, 9] 0 (by decide) (by decide) (by decide) (by decide) (by decide) (by decide)
  exact ⟨by decide, bytes, h1, h2⟩

/-! ## Integer range in `encode` -/

/-- C19. No signed overflow in `encode` within the representable range: the inputs of
length `n <= 1610612733` are those with `4 * ceil(n/3) <= 2^31 - 1`; for such an input and
either padding flag the call returns a count that is at most `2^31 - 1`; `in_index` runs
over `0..n`, at most `2^31 - 1`; after every number `k` of loop iterations `out_index` is
`4 * (k / 3) + k mod 3`, at most the returned count; so the count held in a 32-bit signed
`int` is the count of the length law. -/
theorem encode_no_overflow (input : List Nat) (n : Nat) (output : List Nat) (p : Int)
    (hn : n ≤ input.length) (hb : ∀ x ∈ input.take n, x < 256)
    (hout : 4 * ((n + 2) / 3) + 1 ≤ output.length) (hbound : n ≤ 1610612733) :
    (∀ m : Nat, m ≤ 1610612733 ↔ 4 * ((m + 2) / 3) ≤ 2147483647)
      ∧ ∃ c buf, encode input n output p = some (c, buf)
        ∧ c = (if p ≠ 0 then 4 * ((n + 2) / 3) else (4 * n + 2) / 3)
        ∧ c ≤ 2147483647 ∧ n ≤ 2147483647
        ∧ (∀ k, k ≤ n → ∃ s, encode_loop input k 0
              { output := output, out_index := 0, byte_counter := 0, partial_char := 0 }
              = some s
            ∧ s.out_index = 4 * (k / 3) + k % 3 ∧ s.out_index ≤ c)
        ∧ to_int32 (c : Int) = (c : Int) ∧ to_int32 (n : Int) = (n : Int) := by
  have hlen : (input.take n).length = n := by simp [hn]
  refine ⟨fun m => by omega, ?_⟩
  obtain ⟨buf, he, -⟩ := encode_total input n output p hn hb hout
  have hsl := spec_encode_length (input.take n) (decide (p ≠ 0))
  rw [hlen] at hsl
  have hc : (spec_encode (input.take n) (decide (p ≠ 0))).length
      = if p ≠ 0 then 4 * ((n + 2) / 3) else (4 * n + 2) / 3 := by
    rw [hsl]
    by_cases h : p = 0 <;> simp [h]
  have hcle : (spec_encode (input.take n) (decide (p ≠ 0))).length ≤ 2147483647 := by
    rw [hc]; split <;> omega
  have hcge : (4 * n + 2) / 3 ≤ (spec_encode (input.take n) (decide (p ≠ 0))).length := by
    rw [hc]; split <;> omega
  refine ⟨_, buf, he, hc, hcle, by omega, ?_, ?_, ?_⟩
  · intro k hk
    have hlk : (input.take k).length = k := by simp; omega
    have hbk : ∀ x ∈ input.take k, x < 256 := by
      intro x hx
      apply hb
      have h : input.take k = (input.take n).take k := by
        rw [List.take_take]; congr 1; omega
      rw [h] at hx
      exact List.mem_of_mem_take hx
    have hsk := enc_loop_syms_length (input.take k)
    rw [hlk] at hsk
    have h3 : k % 3 = 0 ∨ k % 3 = 1 ∨ k % 3 = 2 := by omega
    have hkc : 4 * (k / 3) + k % 3 ≤ (4 * n + 2) / 3 := by
      rcases h3 with h | h | h <;> omega
    have hloop := encode_loop_spec input output (input.take k) 0 [] (input.drop k)
      (by simp) hbk (by simp only [List.length_nil, Nat.zero_add]; omega)
    have hw0 : wr output [] = output := by simp [wr]
    rw [hw0, hlk] at hloop
    simp only [List.length_nil, Nat.zero_add, List.nil_append] at hloop
    exact ⟨_, hloop, hsk, by simp only [hsk]; omega⟩
  · unfold to_int32
    omega
  · unfold to_int32
    omega

theorem encode_no_overflow_witness :
    (∀ x ∈ List.take 2 [102, 111], x < 256) ∧
      ∃ c buf, encode [102, 111] 2 [9, 9, 9, 9, 9] 1 = some (c, buf)
        ∧ c = 4 ∧ c ≤ 2147483647 ∧ to_int32 (c : Int) = (c : Int) := by
  obtain ⟨-, c, buf, h1, h2, h3, -, -, h6, -⟩ := encode_no_overflow [102, 111] 2
    [9, 9, 9, 9, 9] 1 (by decide) (by decide) (by decide) (by decide)
  exact ⟨by decide, c, buf, h1, h2, h3, h6⟩

end Base64
